import Mathlib

/-!
# Verification of the VerdictForge field-extraction engine

A shallow embedding of the heuristic extractors, registry and quality gate
of the `legaldata` package (case-citation, decision-date, presiding-judges,
parties and legal-references extractors plus the validator), together with
theorems settling the specification claims about them.

Python strings are modelled as Lean `String`/`List Char`; Python regular
expressions are compiled by hand into equivalent deterministic character
scanners (each scanner's doc comment names the regex it embeds);
`datetime.date` is modelled as a validated year/month/day triple where the
constructor returns `none` exactly when CPython raises `ValueError`.
-/

/-- Python `\s` on ASCII input: space, tab, newline, carriage return,
vertical tab, form feed. -/
def pyIsSpace (c : Char) : Bool :=
  c = ' ' || c = '\t' || c = '\n' || c = '\r' || c = '\x0b' || c = '\x0c'

def isAsciiDigit (c : Char) : Bool := '0' ≤ c && c ≤ '9'

def isAsciiUpper (c : Char) : Bool := 'A' ≤ c && c ≤ 'Z'

def isAsciiLower (c : Char) : Bool := 'a' ≤ c && c ≤ 'z'

def isAsciiAlpha (c : Char) : Bool := isAsciiUpper c || isAsciiLower c

/-- Python `\w` on ASCII input (letters, digits, underscore). -/
def wordChar (c : Char) : Bool := isAsciiAlpha c || isAsciiDigit c || c = '_'

/-- Python `str.strip()` on a character list. -/
def pyStripL (cs : List Char) : List Char :=
  ((cs.dropWhile pyIsSpace).reverse.dropWhile pyIsSpace).reverse

/-- Python `str.strip()`. -/
def pyStrip (s : String) : String := String.mk (pyStripL s.data)

/-- Python `str.lower()` on a character list (ASCII case mapping). -/
def pyLowerL (cs : List Char) : List Char := cs.map Char.toLower

/-- Python `str.lower()`. -/
def pyLower (s : String) : String := String.mk (pyLowerL s.data)

/-- Python substring membership `needle in hay`. -/
def containsSub (needle : List Char) : List Char → Bool
  | [] => needle.isEmpty
  | c :: rest => needle.isPrefixOf (c :: rest) || containsSub needle rest

/-- Python slicing `s[:n]` on a string. -/
def pyTake (n : Nat) (s : String) : String := String.mk (s.data.take n)

/-- Numeric value of a digit string, as computed by Python `int(...)`
on a string of ASCII digits. -/
def natOfDigits (ds : List Char) : Nat :=
  ds.foldl (fun a c => a * 10 + (c.toNat - '0'.toNat)) 0

/-- Left-pad the decimal form of `n` with zeros to width `w`. -/
def padNat (w n : Nat) : String :=
  let s := toString n
  String.mk (List.replicate (w - s.length) '0') ++ s

/-! ## Dates (`datetime.date`) -/

/-- A calendar date as held by a `datetime.date` object. -/
structure PyDate where
  year : Nat
  month : Nat
  day : Nat
deriving DecidableEq

def isLeapYear (y : Nat) : Bool :=
  y % 4 = 0 && (y % 100 ≠ 0 || y % 400 = 0)

def daysInMonth (y m : Nat) : Nat :=
  if m = 2 then (if isLeapYear y then 29 else 28)
  else if m = 4 || m = 6 || m = 9 || m = 11 then 30
  else 31

/-- The `datetime.date(year, month, day)` constructor: `none` exactly when
CPython raises `ValueError` (out-of-range component). -/
def mkDate (y m d : Nat) : Option PyDate :=
  if 1 ≤ y ∧ y ≤ 9999 ∧ 1 ≤ m ∧ m ≤ 12 ∧ 1 ≤ d ∧ d ≤ daysInMonth y m then
    some ⟨y, m, d⟩
  else
    none

/-- Python `date` comparison `a < b` (lexicographic on year, month, day). -/
def pyDateLt (a b : PyDate) : Bool :=
  a.year < b.year ||
    (a.year = b.year && (a.month < b.month ||
      (a.month = b.month && a.day < b.day)))

/-- Python `date.isoformat()`: `YYYY-MM-DD`. -/
def isoFormat (d : PyDate) : String :=
  padNat 4 d.year ++ "-" ++ padNat 2 d.month ++ "-" ++ padNat 2 d.day

/-! ## Evidence model (`core/schemas.py`) -/

/-- The `EvidenceSpan` model: provenance for one matched value. -/
structure EvidenceSpan where
  kind : String
  location : String
  snippet : String
deriving DecidableEq

/-- An evidence span of kind `line` pointing at line `i`. -/
def mkLineEv (i : Nat) (snip : String) : EvidenceSpan :=
  ⟨"line", "lines[" ++ toString i ++ "]", snip⟩

/-- The `ParsedDocument` structure from `parsers/html_parser.py`: source URL, full text
blob, and the flat list of normalized lines. -/
structure ParsedDocument where
  url : String
  text : String
  lines : List String
deriving DecidableEq

/-! ## Decision-date extractor (`extractors/decision_date.py`) -/

/-- The month-name table `MONTHS`. -/
def monthTable : List (String × Nat) :=
  [("january", 1), ("february", 2), ("march", 3), ("april", 4),
   ("may", 5), ("june", 6), ("july", 7), ("august", 8),
   ("september", 9), ("october", 10), ("november", 11), ("december", 12)]

/-- Match one full month name (case-insensitively) at the head of `cs`,
returning its number and the remaining characters. -/
def matchMonth (cs : List Char) : Option (Nat × List Char) :=
  monthTable.findSome? fun p =>
    if p.1.data.isPrefixOf (pyLowerL cs) then some (p.2, cs.drop p.1.length)
    else none

/-- The embedding of `DATE_LINE_RE.match(ln)`: the anchored regex
`^(\d{1,2})\s+(January|...|December)\s+(\d{4})$` (IGNORECASE), returned as
the `(day, month, year)` groups.  The regex is deterministic on its
alternation-free backbone, so it is embedded as a tokenizer: a maximal
digit run of length 1-2, mandatory whitespace, a month name, mandatory
whitespace, exactly four digits, end of line. -/
def parseDateLine (s : String) : Option (Nat × Nat × Nat) :=
  let cs := s.data
  let ds := cs.takeWhile isAsciiDigit
  let r1 := cs.dropWhile isAsciiDigit
  if ds.length = 0 ∨ 2 < ds.length then none
  else if (r1.takeWhile pyIsSpace).length = 0 then none
  else
    match matchMonth (r1.dropWhile pyIsSpace) with
    | none => none
    | some (mo, r3) =>
      if (r3.takeWhile pyIsSpace).length = 0 then none
      else
        let r4 := r3.dropWhile pyIsSpace
        let ys := r4.takeWhile isAsciiDigit
        if ys.length = 4 ∧ (r4.dropWhile isAsciiDigit).isEmpty then
          some (natOfDigits ds, mo, natOfDigits ys)
        else none

/-- A line that matches `DATE_LINE_RE` and whose groups form a possible
calendar date (`date(year, month, day)` does not raise). -/
def parseValidDateLine (s : String) : Option PyDate :=
  match parseDateLine s with
  | some (d, mo, y) => mkDate y mo d
  | none => none

/-- The scanning loop of `extract_decision_date`: walk the lines keeping
the last valid standalone date seen so far (line index, line, date). -/
def ddLoop : Nat → List String → Option (Nat × String × PyDate) →
    Option (Nat × String × PyDate)
  | _, [], acc => acc
  | i, ln :: rest, acc =>
    match parseValidDateLine ln with
    | some d => ddLoop (i + 1) rest (some (i, ln, d))
    | none => ddLoop (i + 1) rest acc

/-- The embedding of `extract_decision_date`: scan the first 200 lines; the last line that
is exactly a standalone valid date wins; one evidence span for the winning
line, or `(None, [])`. -/
def extract_decision_date (lines : List String) :
    Option PyDate × List EvidenceSpan :=
  match ddLoop 0 (lines.take 200) none with
  | some (i, ln, d) => (some d, [mkLineEv i ln])
  | none => (none, [])

/-- Spec-side reading of the decision-date rule: enumerate the first 200
lines, keep those that parse as a valid standalone date, take the last. -/
def dateHits (start : Nat) (ls : List String) : List (Nat × String × PyDate) :=
  (ls.enumFrom start).filterMap fun p =>
    (parseValidDateLine p.2).map fun d => (p.1, p.2, d)

/-- Spec-side reading: the last-occurring valid standalone date line in
the first 200 lines. -/
def lastValidDateHit (lines : List String) : Option (Nat × String × PyDate) :=
  (dateHits 0 (lines.take 200)).getLast?

/-! ## Case-citation extractor (`extractors/case_citation.py`) -/

/-- Match `CITATION_RE` = `\[(\d{4})\]\s+SG[A-Z]{2,}\s+\d+` (IGNORECASE)
at the head of `cs`, returning the length of the match.  Every quantifier
in the pattern is followed by a character that cannot belong to its class,
so greedy maximal runs are exact and no backtracking is needed. -/
def matchCitationAt (cs : List Char) : Option Nat :=
  match cs with
  | '[' :: r0 =>
    let ys := r0.takeWhile isAsciiDigit
    if ys.length = 4 then
      match r0.drop 4 with
      | ']' :: r1 =>
        let w1 := (r1.takeWhile pyIsSpace).length
        if w1 = 0 then none
        else
          match r1.dropWhile pyIsSpace with
          | cs_ :: cg :: r3 =>
            if cs_.toLower = 's' ∧ cg.toLower = 'g' then
              let nL := (r3.takeWhile isAsciiAlpha).length
              if nL < 2 then none
              else
                let r4 := r3.dropWhile isAsciiAlpha
                let w2 := (r4.takeWhile pyIsSpace).length
                if w2 = 0 then none
                else
                  let nD := ((r4.dropWhile pyIsSpace).takeWhile isAsciiDigit).length
                  if nD = 0 then none
                  else some (6 + w1 + 2 + nL + w2 + nD)
            else none
          | _ => none
      | _ => none
    else none
  | _ => none

/-- The embedding of `CITATION_RE.search(s)`: leftmost match, returned as
`(start offset, match length)`. -/
def searchCitation : List Char → Option (Nat × Nat)
  | [] => none
  | c :: rest =>
    match matchCitationAt (c :: rest) with
    | some len => some (0, len)
    | none =>
      match searchCitation rest with
      | some (p, len) => some (p + 1, len)
      | none => none

/-- The value `m.group(0).strip()` for a `(start, length)` match inside `ln`. -/
def citVal (ln : String) (q : Nat × Nat) : String :=
  String.mk (pyStripL ((ln.data.drop q.1).take q.2))

/-- The per-line scanning loop of `extract_case_citation` (strategy (a)):
return on the first line containing a citation. -/
def ccLineLoop : Nat → List String → Option (Nat × String × String)
  | _, [] => none
  | i, ln :: rest =>
    match searchCitation ln.data with
    | some q => some (i, ln, citVal ln q)
    | none => ccLineLoop (i + 1) rest

/-- The embedding of `URL_SLUG_RE.search(url)` with `URL_SLUG_RE` =
`/gd/s/(?P<slug>\d{4}_[A-Z]+_\d+)$` (IGNORECASE): because the pattern is
end-anchored, the match is recovered by parsing the URL from its end.
Returns the `(year, court, number)` pieces of the slug. -/
def urlSlug (url : String) : Option (String × String × String) :=
  let rev := url.data.reverse
  let d1 := rev.takeWhile isAsciiDigit
  if d1.length = 0 then none
  else
    match rev.drop d1.length with
    | '_' :: r1 =>
      let ls := r1.takeWhile isAsciiAlpha
      if ls.length = 0 then none
      else
        match r1.drop ls.length with
        | '_' :: r2 =>
          let y4 := r2.take 4
          if y4.length = 4 ∧ y4.all isAsciiDigit ∧
              "/s/dg/".data.isPrefixOf (pyLowerL (r2.drop 4)) then
            some (String.mk y4.reverse, String.mk ls.reverse,
              String.mk d1.reverse)
          else none
        | _ => none
    | _ => none

/-- The citation derived from a URL slug:
`f"[{year}] {court} {int(num)}"`. -/
def slugCitation (p : String × String × String) : String :=
  "[" ++ p.1 ++ "] " ++ p.2.1 ++ " " ++ toString (natOfDigits p.2.2.data)

/-- The evidence span recorded by the URL-slug fallback. -/
def slugEv (p : String × String × String) : EvidenceSpan :=
  ⟨"regex", "url_slug_fallback", p.1 ++ "_" ++ p.2.1 ++ "_" ++ p.2.2⟩

/-- Evidence for a full-text regex hit `(start p, length len)` in `text`:
location `full_text[p:p+len]`, snippet `text[max(0,p-60):p+len+60][:200]`. -/
def textEv (text : String) (q : Nat × Nat) : EvidenceSpan :=
  ⟨"regex", "full_text[" ++ toString q.1 ++ ":" ++ toString (q.1 + q.2) ++ "]",
    pyTake 200 (String.mk ((text.data.take (q.1 + q.2 + 60)).drop (q.1 - 60)))⟩

/-- Evidence for a line hit in strategy (a): snippet `ln[:200]`. -/
def ccLineEv (i : Nat) (ln : String) : EvidenceSpan :=
  ⟨"line", "lines[" ++ toString i ++ "]", pyTake 200 ln⟩

/-- The embedding of `extract_case_citation`: strategy (a) first matching line of the first
400 lines, else (b) the full text, else (c) the URL slug, else null. -/
def extract_case_citation (doc : ParsedDocument) :
    Option String × List EvidenceSpan :=
  match ccLineLoop 0 (doc.lines.take 400) with
  | some (i, ln, val) => (some val, [ccLineEv i ln])
  | none =>
    match searchCitation doc.text.data with
    | some q => (some (citVal doc.text q), [textEv doc.text q])
    | none =>
      match urlSlug doc.url with
      | some p => (some (slugCitation p), [slugEv p])
      | none => (none, [])

/-- Spec-side reading of strategy (a): among the first 400 normalized
lines, the first line on which the citation pattern matches. -/
def firstLineCitation (lines : List String) : Option (Nat × String × String) :=
  ((lines.take 400).enum.filterMap fun p =>
    (searchCitation p.2.data).map fun q => (p.1, p.2, citVal p.2 q)).head?

/-! ## Schemas (`core/schemas.py`) and quality gate (`validators/quality_gates.py`) -/

/-- The `LegalReference` model: one cited authority. -/
structure LegalReference where
  ref_type : String
  citation : String
  pinpoint : Option String
  evidence : Option EvidenceSpan
deriving DecidableEq

/-- The `Parties` model: claimant and defendant name lists. -/
structure Parties where
  claimants : List String
  defendants : List String
deriving DecidableEq

/-- The fields of `ExtractedCase` consulted by the quality gate (plus the
url and parties).  `presiding_judges` is a list of optional strings
because the validator defensively handles `None` entries
(`if j is None: continue`). -/
structure ExtractedCase where
  url : String
  case_citation : Option String
  decision_date : Option PyDate
  presiding_judges : List (Option String)
  legal_references_cited : List LegalReference
  parties : Parties
deriving DecidableEq

/-- Python `repr()` of a string with printable-ASCII content: quote choice
(single quotes unless the text holds a single quote and no double quote)
plus escaping of the backslash, the chosen quote, and the common control
characters. -/
def pyRepr (s : String) : String :=
  let q : Char := if s.data.contains '\'' ∧ ¬ s.data.contains '"' then '"' else '\''
  let esc := s.data.foldr (fun c acc =>
    if c = '\\' then '\\' :: '\\' :: acc
    else if c = q then '\\' :: q :: acc
    else if c = '\n' then '\\' :: 'n' :: acc
    else if c = '\r' then '\\' :: 'r' :: acc
    else if c = '\t' then '\\' :: 't' :: acc
    else c :: acc) []
  String.mk (q :: esc ++ [q])

/-- The judge-token loop of `validate_extracted_case`: `None` entries are
skipped; a non-empty trimmed token shorter than 4 characters yields a
`suspicious judge token` warning. -/
def judgeWarns : List (Option String) → List String
  | [] => []
  | none :: rest => judgeWarns rest
  | some j :: rest =>
    let token := pyStrip j
    (if token ≠ "" ∧ token.length < 4 then
      ["suspicious judge token: " ++ pyRepr token]
    else []) ++ judgeWarns rest

/-- The citation check of `validate_extracted_case`: a present, non-blank
citation that does not match `^\[\d{4}\]\s+SG[A-Z]{2,}\s+\d+` (IGNORECASE)
is flagged.  The anchored validator pattern is decided by
`matchCitationAt`, the scanner for the identical pattern body. -/
def citationWarns (c? : Option String) : List String :=
  match c? with
  | none => []
  | some c =>
    let cit := pyStrip c
    if cit ≠ "" ∧ matchCitationAt cit.data = none then
      ["case_citation format unexpected: " ++ c]
    else []

/-- The decision-date check: computes
`date.today().replace(year=date.today().year + 1)` — which, like CPython,
fails (raises `ValueError`) when `today` is 29 February of a leap year —
then flags dates beyond that bound. -/
def dateWarns (d? : Option PyDate) (today : PyDate) : Except String (List String) :=
  match d? with
  | none => Except.ok []
  | some d =>
    match mkDate (today.year + 1) today.month today.day with
    | none => Except.error "ValueError: day is out of range for month"
    | some maxFuture =>
      Except.ok (if pyDateLt maxFuture d then
        ["decision_date seems implausible: " ++ isoFormat d]
      else [])

/-- The embedding of `validate_extracted_case(record)` with the processing-time `today`
made explicit: returns `(ok, warnings)` unless the date check raises. -/
def validate_extracted_case (r : ExtractedCase) (today : PyDate) :
    Except String (Bool × List String) :=
  let e1 := citationWarns r.case_citation
  match dateWarns r.decision_date today with
  | Except.error e => Except.error e
  | Except.ok e2 =>
    let e3 := judgeWarns r.presiding_judges
    let e4 := if 2000 < r.legal_references_cited.length then
        ["too many legal references extracted; likely parser noise"]
      else []
    let errs := e1 ++ e2 ++ e3 ++ e4
    Except.ok (errs.isEmpty, errs)

/-- A record with a null citation and every other field empty. -/
def emptyRecord : ExtractedCase := ⟨"", none, none, [], [], ⟨[], []⟩⟩

/-- A record whose citation is the non-matching string `"garbage"`. -/
def garbageRecord : ExtractedCase := ⟨"", some "garbage", none, [], [], ⟨[], []⟩⟩

/-! ## Legal-references extractor (`extractors/legal_references.py`) -/

/-- Match the first alternative of `CASE_CIT_RE`,
`\[(\d{4})\]\s+\d+\s+SLR\(R\)\s+\d+` (IGNORECASE), at the head of `cs`,
returning the match length. -/
def matchSlrAt (cs : List Char) : Option Nat :=
  match cs with
  | '[' :: r0 =>
    if (r0.takeWhile isAsciiDigit).length = 4 then
      match r0.drop 4 with
      | ']' :: r1 =>
        let w1 := (r1.takeWhile pyIsSpace).length
        if w1 = 0 then none
        else
          let r2 := r1.dropWhile pyIsSpace
          let d1 := (r2.takeWhile isAsciiDigit).length
          if d1 = 0 then none
          else
            let r3 := r2.dropWhile isAsciiDigit
            let w2 := (r3.takeWhile pyIsSpace).length
            if w2 = 0 then none
            else
              match r3.dropWhile pyIsSpace with
              | a :: b :: c :: '(' :: d :: ')' :: r4 =>
                if a.toLower = 's' ∧ b.toLower = 'l' ∧ c.toLower = 'r' ∧
                    d.toLower = 'r' then
                  let w3 := (r4.takeWhile pyIsSpace).length
                  if w3 = 0 then none
                  else
                    let d2 := ((r4.dropWhile pyIsSpace).takeWhile isAsciiDigit).length
                    if d2 = 0 then none
                    else some (6 + w1 + d1 + w2 + 6 + w3 + d2)
                else none
              | _ => none
      | _ => none
    else none
  | _ => none

/-- Match `CASE_CIT_RE` (the two-alternative pattern of
`legal_references.py`) at the head of `cs`: the `SLR(R)` alternative is
tried first, then the `SG<letters>` alternative. -/
def matchCaseCitAt (cs : List Char) : Option Nat :=
  match matchSlrAt cs with
  | some len => some len
  | none => matchCitationAt cs

/-- The embedding of `CASE_CIT_RE.finditer(ln)`: non-overlapping leftmost matches, scanning
forward.  The fuel argument (initially the list length) bounds the
recursion; every step either consumes a whole match (length ≥ 1) or one
character. -/
def finditerCaseAux : Nat → List Char → List (List Char)
  | 0, _ => []
  | _, [] => []
  | fuel + 1, c :: rest =>
    match matchCaseCitAt (c :: rest) with
    | some len => (c :: rest).take len :: finditerCaseAux fuel ((c :: rest).drop len)
    | none => finditerCaseAux fuel rest

def finditerCase (cs : List Char) : List (List Char) :=
  finditerCaseAux cs.length cs

/-- Match `PINPOINT_RE` = `\bat\s*\[(\d+)\]` (IGNORECASE) at the head of
`l`, where `prev` is the character before `l` (for the word boundary);
returns the digit group. -/
def matchPinAt (prev : Option Char) (l : List Char) : Option String :=
  let bOk := match prev with
    | none => true
    | some p => !wordChar p
  if !bOk then none
  else
    match l with
    | a :: t :: r1 =>
      if a.toLower = 'a' ∧ t.toLower = 't' then
        match r1.dropWhile pyIsSpace with
        | '[' :: r2 =>
          let ds := r2.takeWhile isAsciiDigit
          if ds.length = 0 then none
          else
            match r2.drop ds.length with
            | ']' :: _ => some (String.mk ds)
            | _ => none
        | _ => none
      else none
    | _ => none

/-- The embedding of `PINPOINT_RE.search(ln)`: the first (leftmost) pinpoint match. -/
def searchPinFrom : Option Char → List Char → Option String
  | _, [] => none
  | prev, c :: rest =>
    match matchPinAt prev (c :: rest) with
    | some ds => some ds
    | none => searchPinFrom (some c) rest

/-- The character class `[A-Za-z ]` of `STATUTE_RE`. -/
def statClass (c : Char) : Bool := isAsciiAlpha c || c = ' '

/-- Does the literal ` Act` (case-insensitively) sit at offset `j` of the
`[A-Za-z ]+` run of `STATUTE_RE` (i.e. at index `1 + j` of `l`), followed
by a word boundary? -/
def actOffOk (l : List Char) (j : Nat) : Bool :=
  (l.get? (1 + j) == some ' ') &&
  ((l.get? (1 + j + 1)).map Char.toLower == some 'a') &&
  ((l.get? (1 + j + 2)).map Char.toLower == some 'c') &&
  ((l.get? (1 + j + 3)).map Char.toLower == some 't') &&
  (match l.get? (1 + j + 4) with
   | none => true
   | some c => !wordChar c)

/-- The greedy (largest) admissible offset of ` Act` within the run:
the regex engine backtracks `[A-Za-z ]+` from the longest extent. -/
def bestActOffset (l : List Char) (runLen : Nat) : Option Nat :=
  (((List.range runLen).filter fun j => 1 ≤ j).reverse).find? (actOffOk l)

/-- The optional group `(?:\s+\d{4})?` of `STATUTE_RE`: consumed length
(0 when the group does not participate). -/
def optYearLen (cs : List Char) : Nat :=
  let w := (cs.takeWhile pyIsSpace).length
  if w = 0 then 0
  else if 4 ≤ ((cs.drop w).takeWhile isAsciiDigit).length then w + 4
  else 0

/-- The optional group `(?:\s*\(\d{4}\s+Rev\s+Ed\))?` of `STATUTE_RE`:
consumed length (0 when the group does not participate). -/
def optRevEdLen (cs : List Char) : Nat :=
  let w := (cs.takeWhile pyIsSpace).length
  match cs.drop w with
  | '(' :: r1 =>
    if (r1.takeWhile isAsciiDigit).length = 4 then
      let r2 := r1.drop 4
      let w2 := (r2.takeWhile pyIsSpace).length
      if w2 = 0 then 0
      else
        match r2.drop w2 with
        | cr :: ce :: cv :: r3 =>
          if cr.toLower = 'r' ∧ ce.toLower = 'e' ∧ cv.toLower = 'v' then
            let w3 := (r3.takeWhile pyIsSpace).length
            if w3 = 0 then 0
            else
              match r3.drop w3 with
              | ca :: cb :: ')' :: _ =>
                if ca.toLower = 'e' ∧ cb.toLower = 'd' then
                  w + 1 + 4 + w2 + 3 + w3 + 2 + 1
                else 0
              | _ => 0
          else 0
        | _ => 0
    else 0
  | _ => 0

/-- Match `STATUTE_RE` =
`\b[A-Z][A-Za-z ]+ Act\b(?:\s+\d{4})?(?:\s*\(\d{4}\s+Rev\s+Ed\))?`
(IGNORECASE) at the head of `l`, with `prev` the character before `l`
(for the leading word boundary); returns the match length. -/
def matchStatuteAt (prev : Option Char) (l : List Char) : Option Nat :=
  let bOk := match prev with
    | none => true
    | some p => !wordChar p
  if !bOk then none
  else
    match l with
    | [] => none
    | c0 :: tail =>
      if !isAsciiAlpha c0 then none
      else
        match bestActOffset l (tail.takeWhile statClass).length with
        | none => none
        | some j =>
          let cLen := 1 + j + 4
          let o1 := optYearLen (l.drop cLen)
          let o2 := optRevEdLen (l.drop (cLen + o1))
          some (cLen + o1 + o2)

/-- The embedding of `STATUTE_RE.finditer(ln)`: non-overlapping leftmost matches; `prev`
tracks the character before the current position for the `\b` check. -/
def finditerStatAux : Nat → Option Char → List Char → List (List Char)
  | 0, _, _ => []
  | _, _, [] => []
  | fuel + 1, prev, c :: rest =>
    match matchStatuteAt prev (c :: rest) with
    | some len =>
      (c :: rest).take len ::
        finditerStatAux fuel (((c :: rest).take len).getLast?) ((c :: rest).drop len)
    | none => finditerStatAux fuel (some c) rest

def finditerStat (cs : List Char) : List (List Char) :=
  finditerStatAux cs.length none cs

/-- The references harvested from one line: every case-citation match
(with the line's first pinpoint, if any, attached), then every statute
match; each carries a `line`-kind evidence span with snippet `ln[:220]`. -/
def lineRefs (i : Nat) (ln : String) : List LegalReference :=
  let ev : EvidenceSpan := ⟨"line", "lines[" ++ toString i ++ "]", pyTake 220 ln⟩
  let pin : Option String := (searchPinFrom none ln.data).map fun ds => "[" ++ ds ++ "]"
  ((finditerCase ln.data).map fun m =>
    ⟨"case", String.mk (pyStripL m), pin, some ev⟩) ++
  ((finditerStat ln.data).map fun m =>
    ⟨"statute", String.mk (pyStripL m), none, some ev⟩)

/-- The dedup key of `legal_references.py`:
`(r.ref_type, r.citation.lower(), r.pinpoint or "")`. -/
def keyOf (r : LegalReference) : String × String × String :=
  (r.ref_type, pyLower r.citation, r.pinpoint.getD "")

/-- The `seen`-set deduplication loop of `extract_legal_references`. -/
def dedupRefsAux (seen : List (String × String × String)) :
    List LegalReference → List LegalReference
  | [] => []
  | r :: rest =>
    if seen.contains (keyOf r) then dedupRefsAux seen rest
    else r :: dedupRefsAux (keyOf r :: seen) rest

/-- All raw (pre-dedup) references of the first 2000 lines, in scan
order. -/
def rawLegalRefs (lines : List String) : List LegalReference :=
  (((lines.take 2000).enum).map fun p => lineRefs p.1 p.2).flatten

/-- The embedding of `extract_legal_references`: raw scan of the first 2000 lines, then
key-based deduplication; the evidence list is the raw (un-deduplicated)
evidence of every match. -/
def extract_legal_references (doc : ParsedDocument) :
    List LegalReference × List EvidenceSpan :=
  let raw := rawLegalRefs doc.lines
  (dedupRefsAux [] raw, raw.filterMap fun r => r.evidence)

/-- Spec-side reading of deduplication: keep each reference whose key has
not occurred before, preserving first-seen order. -/
def firstOccurDedup : List LegalReference → List LegalReference
  | [] => []
  | r :: rest =>
    r :: firstOccurDedup (rest.filter fun x => keyOf x ≠ keyOf r)
termination_by l => l.length
decreasing_by
  simp only [List.length_cons]
  exact Nat.lt_succ_of_le (List.length_filter_le _ _)

/-- First-occurrence deduplication on key sequences. -/
def kd (seen : List (String × String × String)) :
    List (String × String × String) → List (String × String × String)
  | [] => []
  | k :: rest =>
    if seen.contains k then kd seen rest
    else k :: kd (k :: seen) rest

/-- The `seen` set after scanning `ks`. -/
def seenAfter (seen : List (String × String × String))
    (ks : List (String × String × String)) : List (String × String × String) :=
  ks.foldl (fun s k => if s.contains k then s else k :: s) seen

/-- The dedup keys harvested from one line, independent of the line
index (the index only affects evidence, which the key ignores). -/
def lineKeys (ln : String) : List (String × String × String) :=
  (lineRefs 0 ln).map keyOf

/-- The concatenated key sequence of a list of lines. -/
def keysOfLines (lines : List String) : List (String × String × String) :=
  (lines.map lineKeys).flatten

/-! ## Parties extractor (`extractors/parties.py`) -/

/-- Python substring membership `needle in hay` on strings. -/
def strContains (needle hay : String) : Bool :=
  containsSub needle.data hay.data

/-- Python `str.replace(needle, "")`: remove all non-overlapping
occurrences, scanning left to right (fuel-bounded recursion). -/
def pyRemoveAux (needle : List Char) : Nat → List Char → List Char
  | 0, cs => cs
  | _, [] => []
  | fuel + 1, c :: rest =>
    if needle.isPrefixOf (c :: rest) then
      pyRemoveAux needle fuel ((c :: rest).drop needle.length)
    else c :: pyRemoveAux needle fuel rest

def pyRemove (needle : String) (cs : List Char) : List Char :=
  pyRemoveAux needle.data (cs.length + 1) cs

/-- The embedding of `re.sub(r"\s+", " ", s)`: collapse every whitespace run to a single
space (the flag records whether the previous character was whitespace). -/
def collapseWsAux : Bool → List Char → List Char
  | _, [] => []
  | prevWs, c :: rest =>
    if pyIsSpace c then
      if prevWs then collapseWsAux true rest
      else ' ' :: collapseWsAux true rest
    else c :: collapseWsAux false rest

/-- The embedding of `_clean_name`: drop the mojibake ellipsis, strip, collapse runs of
whitespace. -/
def clean_name (s : String) : String :=
  String.mk (collapseWsAux false (pyStripL (pyRemove "â€¦" s.data)))

/-- Strategy A claimant loop: collect `(index, line)` pairs until a
standalone `and` line; returns the collected pairs and, when the loop
stopped at an `and` line, that position and suffix. -/
def loopA1 : Nat → List String → List (Nat × String) × Option (Nat × List String)
  | _, [] => ([], none)
  | i, ln :: rest =>
    if pyLower (pyStrip ln) == "and" then ([], some (i, ln :: rest))
    else
      let name := clean_name ln
      let (tail, stop) := loopA1 (i + 1) rest
      (if name ≠ "" ∧ strContains "claimant" (pyLower name) = false then
        (i, ln) :: tail
      else tail, stop)

/-- Strategy A defendant loop: collect until a line containing
`grounds of decision`. -/
def loopA2 : Nat → List String → List (Nat × String)
  | _, [] => []
  | i, ln :: rest =>
    if strContains "grounds of decision" (pyLower ln) then []
    else
      let name := clean_name ln
      (if name ≠ "" ∧ strContains "defendant" (pyLower name) = false then
        [(i, ln)]
      else []) ++ loopA2 (i + 1) rest

/-- The index of the first standalone `between` line. -/
def betweenIdx (ls : List String) : Option Nat :=
  ls.findIdx? fun ln => pyLower (pyStrip ln) == "between"

/-- The embedding of `V_LINE_RE.match(ln.strip())`: the stripped line is exactly `v`
(case-insensitively). -/
def isVLine (ln : String) : Bool := pyLower (pyStrip ln) == "v"

/-- Indices scanned upward from the `v` line: `range(v-1, max(-1, v-8), -1)`. -/
def upIdxs (v : Nat) : List Nat :=
  (List.range 7).filterMap fun k => if k < v then some (v - 1 - k) else none

/-- Indices scanned downward from the `v` line:
`range(v+1, min(len, v+8))`. -/
def downIdxs (v len : Nat) : List Nat :=
  (List.range 7).filterMap fun k =>
    if v + 1 + k < min len (v + 8) then some (v + 1 + k) else none

/-- Strategy B upward loop: prepend up to 3 claimant candidates, breaking
on section headings, skipping blank and claimant/defendant-labelled
lines. -/
def loopUp (header : List String) :
    List Nat → List String → List EvidenceSpan → List String × List EvidenceSpan
  | [], cl, ev => (cl, ev)
  | i :: restIdx, cl, ev =>
    let ln := header.getD i ""
    let name := clean_name ln
    if name = "" then loopUp header restIdx cl ev
    else
      let lo := pyLower name
      if strContains "grounds of decision" lo || strContains "judgment" lo then
        (cl, ev)
      else if strContains "claimant" lo || strContains "defendant" lo then
        loopUp header restIdx cl ev
      else
        let cl' := name :: cl
        let ev' := ev ++ [⟨"line", "lines[" ++ toString i ++ "]", pyTake 200 ln⟩]
        if 3 ≤ cl'.length then (cl', ev') else loopUp header restIdx cl' ev'

/-- Strategy B downward loop: append up to 3 defendant candidates. -/
def loopDown (header : List String) :
    List Nat → List String → List EvidenceSpan → List String × List EvidenceSpan
  | [], dl, ev => (dl, ev)
  | i :: restIdx, dl, ev =>
    let ln := header.getD i ""
    let name := clean_name ln
    if name = "" then loopDown header restIdx dl ev
    else
      let lo := pyLower name
      if strContains "grounds of decision" lo then (dl, ev)
      else if strContains "claimant" lo || strContains "defendant" lo then
        loopDown header restIdx dl ev
      else
        let dl' := dl ++ [name]
        let ev' := ev ++ [⟨"line", "lines[" ++ toString i ++ "]", pyTake 200 ln⟩]
        if 3 ≤ dl'.length then (dl', ev') else loopDown header restIdx dl' ev'

/-- The embedding of `extract_parties`: Strategy A (standalone `between` line in the first
450 lines), else Strategy B (standalone `v` line in the first 250 lines),
else empty `Parties` with no evidence. -/
def extract_parties (doc : ParsedDocument) : Parties × List EvidenceSpan :=
  let lines450 := doc.lines.take 450
  match betweenIdx lines450 with
  | some ib =>
    let r1 := loopA1 (ib + 1) (lines450.drop (ib + 1))
    let cl := r1.1
    let dl := match r1.2 with
      | some (j, _ :: rest2) => loopA2 (j + 1) rest2
      | _ => []
    let claimants := (cl.map fun p => clean_name p.2).filter fun p =>
      p ≠ "" ∧ strContains "claimant" (pyLower p) = false
    let defendants := (dl.map fun p => clean_name p.2).filter fun p =>
      p ≠ "" ∧ strContains "defendant" (pyLower p) = false
    let ev := (cl.map fun p =>
        (⟨"line", "lines[" ++ toString p.1 ++ "]", pyTake 200 p.2⟩ : EvidenceSpan)) ++
      (dl.map fun p =>
        (⟨"line", "lines[" ++ toString p.1 ++ "]", pyTake 200 p.2⟩ : EvidenceSpan))
    (⟨claimants, defendants⟩, ev)
  | none =>
    let header := lines450.take 250
    match header.findIdx? isVLine with
    | some vi =>
      let rU := loopUp header (upIdxs vi) [] []
      let rD := loopDown header (downIdxs vi header.length) [] []
      (⟨rU.1, rD.1⟩, rU.2 ++ rD.2)
    | none => (⟨[], []⟩, [])

/-! ## Presiding-judges extractor (`extractors/presiding_judges.py`) -/

/-- The judicial-title alternation `TITLES`, in the source's order. -/
def TITLES : List String := ["CJ", "JA", "J", "JC", "SJ", "AR", "DJ", "Magistrate"]

/-- The name character class `[A-Za-z'.\- ]`. -/
def nameClass (c : Char) : Bool :=
  isAsciiAlpha c || c = '\'' || c = '.' || c = '-' || c = ' '

/-- The pattern tail `\s*:?\s*$`. -/
def endTail (cs : List Char) : Bool :=
  match cs.dropWhile pyIsSpace with
  | [] => true
  | ':' :: r2 => (r2.dropWhile pyIsSpace).isEmpty
  | _ => false

/-- A `\b` word boundary between a character `prev` and the rest of the
input (the end of input counts as a non-word position). -/
def boundaryOk (prev : Char) (rest : List Char) : Bool :=
  match rest with
  | [] => wordChar prev
  | c :: _ => (wordChar prev && !wordChar c) || (!wordChar prev && wordChar c)

/-- Does the literal `pat` start `cs` (optionally case-insensitively)? -/
def litHere (ci : Bool) (pat cs : List Char) : Bool :=
  if ci then pyLowerL pat == pyLowerL (cs.take pat.length)
  else pat.isPrefixOf cs

/-- The tail `(title)\b\s*:?\s*$` tried over the title alternation in
order; a title whose boundary or tail fails falls through to the next
alternative, exactly as the regex engine backtracks. -/
def tryTitlesTail (ci : Bool) (r1 : List Char) : Option String :=
  TITLES.findSome? fun t =>
    if litHere ci t.data r1 then
      let r2 := r1.drop t.length
      if (match r2 with
          | [] => true
          | c :: _ => !wordChar c) && endTail r2 then some t
      else none
    else none

/-- The tail `\s+(title)\b\s*:?\s*$` after a candidate name. -/
def nameTailCheck (ci : Bool) (rest : List Char) : Option String :=
  let r1 := rest.dropWhile pyIsSpace
  if r1.length = rest.length then none
  else tryTitlesTail ci r1

/-- The lazy expansion of `(?P<name>[A-Z][A-Za-z'.\- ]{2,}?)\s+(title)...`:
try the shortest name first, growing one class character at a time, as a
lazy quantifier does. -/
def lazyNameLoop (ci : Bool) : List Char → List Char → Option (String × String)
  | revName, rest =>
    match nameTailCheck ci rest with
    | some t => some (String.mk revName.reverse, t)
    | none =>
      match rest with
      | [] => none
      | c :: rest' =>
        if nameClass c then lazyNameLoop ci (c :: revName) rest' else none

/-- The embedding of `POSTFIX_RE.match(s)` =
`^(?P<name>[A-Z][A-Za-z'.\- ]{2,}?)\s+(?P<title>TITLES)\b\s*:?\s*$`
(case-sensitive), returned as the `(name, title)` groups. -/
def postfixMatch (s : List Char) : Option (String × String) :=
  match s with
  | c0 :: c1 :: c2 :: rest =>
    if isAsciiUpper c0 && nameClass c1 && nameClass c2 then
      lazyNameLoop false [c2, c1, c0] rest
    else none
  | _ => none

/-- The lazy name of `PREFIX_RE`, whose tail is just `\b\s*:?\s*$`. -/
def lazyName2Loop : Char → List Char → List Char → Option String
  | prev, revName, rest =>
    if boundaryOk prev rest && endTail rest then some (String.mk revName.reverse)
    else
      match rest with
      | [] => none
      | c :: rest' =>
        if nameClass c then lazyName2Loop c (c :: revName) rest' else none

/-- The embedding of `PREFIX_RE.match(s)` =
`^(?P<title>TITLES)\s+(?P<name>[A-Z][A-Za-z'.\- ]{2,}?)\b\s*:?\s*$`
(case-sensitive). -/
def prefixMatch (s : List Char) : Option (String × String) :=
  TITLES.findSome? fun t =>
    if litHere false t.data s then
      let r := s.drop t.length
      let r1 := r.dropWhile pyIsSpace
      if r1.length = r.length then none
      else
        (match r1 with
         | c0 :: c1 :: c2 :: rest =>
           if isAsciiUpper c0 && nameClass c1 && nameClass c2 then
             (lazyName2Loop c2 [c2, c1, c0] rest).map fun nm => (nm, t)
           else none
         | _ => none)
    else none

/-- The embedding of `BEFORE_RE.match(s)` =
`^(?:Before|Coram)\s*:\s*(?P<name>...)\s+(?P<title>TITLES)\b\s*:?\s*$`
(IGNORECASE). -/
def beforeMatch (s : List Char) : Option (String × String) :=
  match (if litHere true "before".data s then some (s.drop 6)
         else if litHere true "coram".data s then some (s.drop 5)
         else none) with
  | none => none
  | some r =>
    match r.dropWhile pyIsSpace with
    | ':' :: r2 =>
      (match r2.dropWhile pyIsSpace with
       | c0 :: c1 :: c2 :: rest =>
         if isAsciiAlpha c0 && nameClass c1 && nameClass c2 then
           lazyNameLoop true [c2, c1, c0] rest
         else none
       | _ => none)
    | _ => none

/-- The three shapes of `try_match`, on an already-stripped line. -/
def tryMatchCore (cs : List Char) : Option (String × String) :=
  match postfixMatch cs with
  | some p => some p
  | none =>
    match prefixMatch cs with
    | some p => some p
    | none => beforeMatch cs

/-- The embedding of `try_match(line)`: strip, reject blank lines, try the three shapes. -/
def tryMatchStr (line : String) : Option (String × String) :=
  let s := pyStrip line
  if s = "" then none else tryMatchCore s.data

/-- Python `" ".join(s.split())`. -/
def joinWords (s : String) : String :=
  String.mk (collapseWsAux false (pyStripL s.data))

/-- The normalized value built by `_add`: `f"{clean_name} {clean_title}".strip()`
with the name first and the title last, whatever shape matched. -/
def mkJudgeVal (nm t : String) : String :=
  pyStrip (joinWords nm ++ " " ++ pyStrip t)

/-- The anchor phrases `ANCHORS`. -/
def ANCHORS : List String :=
  ["general division", "court of appeal", "family justice courts",
   "originating claim", "summons", "grounds of decision", "judgment reserved"]

/-- Is a line an anchor line (any anchor phrase inside the stripped,
lowercased line)? -/
def isAnchor (ln : String) : Bool :=
  ANCHORS.any fun a => strContains a (pyLower (pyStrip ln))

/-- The embedding of `_add` plus the surrounding `try_match` bookkeeping: on a match the
normalized value is appended to the judges list unless already present,
and an evidence span for the (stripped) line is always appended. -/
def tmStep (idx : Nat) (line : String)
    (st : List String × List EvidenceSpan) :
    Bool × (List String × List EvidenceSpan) :=
  let s := pyStrip line
  if s = "" then (false, st)
  else
    match tryMatchCore s.data with
    | some p =>
      let val := mkJudgeVal p.1 p.2
      (true,
        (if st.1.contains val then st.1 else st.1 ++ [val],
         st.2 ++ [⟨"line", "lines[" ++ toString idx ++ "]", pyTake 200 s⟩]))
    | none => (false, st)

/-- Pass 1: direct single-line matches over the whole window. -/
def pass1 : Nat → List String → (List String × List EvidenceSpan) →
    List String × List EvidenceSpan
  | _, [], st => st
  | base, ln :: rest, st => pass1 (base + 1) rest (tmStep base ln st).2

/-- Python `" ".join(x.strip() for x in window[i:i+3] if x and x.strip())`. -/
def joinWithSpace : List String → String
  | [] => ""
  | [x] => x
  | x :: rest => x ++ " " ++ joinWithSpace rest

def joinStitch (ws : List String) : String :=
  joinWithSpace ((ws.map pyStrip).filter fun x => x ≠ "")

/-- Pass 2: stitch each line with its next two, stopping at the first
successful stitched match. -/
def pass2 : Nat → List String → (List String × List EvidenceSpan) →
    List String × List EvidenceSpan
  | base, w0 :: w1 :: w2 :: rest, st =>
    let r := tmStep base (joinStitch [w0, w1, w2]) st
    if r.1 then r.2 else pass2 (base + 1) (w1 :: w2 :: rest) r.2
  | _, _, st => st

/-- Evidence deduplication by `(location, snippet)`, preserving order. -/
def dedupEvAux (seen : List (String × String)) :
    List EvidenceSpan → List EvidenceSpan
  | [] => []
  | e :: rest =>
    if seen.contains (e.location, e.snippet) then dedupEvAux seen rest
    else e :: dedupEvAux ((e.location, e.snippet) :: seen) rest

/-- The anchored search window and its base offset: roughly 80 lines
before through 120 lines after the first anchor line, or the whole first
600 lines when no anchor is found. -/
def windowBase (head : List String) : List String × Nat :=
  match head.findIdx? isAnchor with
  | none => (head, 0)
  | some ai => ((head.take (min head.length (ai + 120))).drop (ai - 80), ai - 80)

/-- The embedding of `extract_presiding_judges`: anchored window over the first 600 lines,
pass 1 of direct matches, pass 2 of stitched matches if pass 1 found no
judges, then evidence deduplication. -/
def extract_presiding_judges (doc : ParsedDocument) :
    List String × List EvidenceSpan :=
  if doc.lines.isEmpty then ([], [])
  else
    let wb := windowBase (doc.lines.take 600)
    let st1 := pass1 wb.2 wb.1 ([], [])
    let st2 := if st1.1.isEmpty then pass2 wb.2 wb.1 st1 else st1
    (st2.1, dedupEvAux [] st2.2)

/-- The C5 state invariant: every accumulated judge is the canonical
`Name Title` normalization of some successful `try_match`, and the list
holds no duplicates. -/
def JudgesOk (js : List String) : Prop :=
  (∀ j ∈ js, ∃ s nm t, tryMatchStr s = some (nm, t) ∧ j = mkJudgeVal nm t) ∧
  js.Nodup

/-! ## Extraction registry (`extractors/registry.py`) -/

/-- The heterogeneous per-field result `(value, evidence)` of one
extractor. -/
inductive FieldResult where
  | citationV (v : Option String) (ev : List EvidenceSpan)
  | dateV (v : Option PyDate) (ev : List EvidenceSpan)
  | judgesV (v : List String) (ev : List EvidenceSpan)
  | partiesV (v : Parties) (ev : List EvidenceSpan)
  | refsV (v : List LegalReference) (ev : List EvidenceSpan)
deriving DecidableEq

/-- The embedding of `extract_all`: the field-name → (value, evidence) mapping, in the
source dict's insertion order. -/
def extract_all (doc : ParsedDocument) : List (String × FieldResult) :=
  [("case_citation",
    FieldResult.citationV (extract_case_citation doc).1 (extract_case_citation doc).2),
   ("decision_date",
    FieldResult.dateV (extract_decision_date doc.lines).1 (extract_decision_date doc.lines).2),
   ("presiding_judges",
    FieldResult.judgesV (extract_presiding_judges doc).1 (extract_presiding_judges doc).2),
   ("parties",
    FieldResult.partiesV (extract_parties doc).1 (extract_parties doc).2),
   ("legal_references_cited",
    FieldResult.refsV (extract_legal_references doc).1 (extract_legal_references doc).2)]

/-- The list returned by `supported_variables()`. -/
def supported_variables : List String :=
  ["case_citation", "decision_date", "presiding_judges", "parties",
   "legal_references_cited"]

/-- Dictionary lookup on an association list (first entry wins, as in a
Python dict where keys are unique). -/
def dictGet (d : List (String × FieldResult)) (n : String) : Option FieldResult :=
  (d.find? fun p => p.1 == n).map Prod.snd

/-- Python dict assignment `d[k] = v`: overwrite an existing key in
place, else append. -/
def dictInsert (d : List (String × FieldResult)) (k : String) (v : FieldResult) :
    List (String × FieldResult) :=
  if (d.map Prod.fst).contains k then
    d.map fun p => if p.1 == k then (k, v) else p
  else d ++ [(k, v)]

/-- The dict comprehension `{n: all_vars[n] for n in names}`.  The `getD`
default is unreachable: the caller only builds the dict after validating
that every name is a key of `all_vars`. -/
def pyDictComp (names : List String) (allVars : List (String × FieldResult)) :
    List (String × FieldResult) :=
  names.foldl
    (fun d n => dictInsert d n ((dictGet allVars n).getD (FieldResult.citationV none [])))
    []

/-- The Python `repr` of a list of strings, as interpolated by an
f-string: `['a', 'b']`. -/
def pyListReprAux : List String → String
  | [] => ""
  | [x] => pyRepr x
  | x :: rest => pyRepr x ++ ", " ++ pyListReprAux rest

def pyListRepr (l : List String) : String := "[" ++ pyListReprAux l ++ "]"

/-- The embedding of `extract_by_names`: validate every requested name against the keys of
the extract-all result; raise a `ValueError` listing all unknown names and
the supported set if any is unknown, else return the requested subset. -/
def extract_by_names (doc : ParsedDocument) (names : List String) :
    Except String (List (String × FieldResult)) :=
  let allVars := extract_all doc
  let unknown := names.filter fun n => !(((allVars.map Prod.fst)).contains n)
  if unknown.isEmpty then Except.ok (pyDictComp names allVars)
  else
    Except.error ("Unknown variable(s): " ++ pyListRepr unknown ++
      ". Supported: " ++ pyListRepr supported_variables)


/-- The normalized judge value that `try_match` would add for one
line (or stitched window): `mkJudgeVal` of the first matching shape, or
`none` when the stripped line is blank or no shape matches. -/
def lineVal (line : String) : Option String :=
  (tryMatchStr line).map fun p => mkJudgeVal p.1 p.2

/-- The judges-list accumulation of `_add` over a sequence of matched
values: append each value unless already present. -/
def judgesFold : List String → List String → List String
  | js, [] => js
  | js, v :: rest => judgesFold (if js.contains v then js else js ++ [v]) rest

/-- The canonical first-occurrence deduplication of a string sequence:
keep each value's first occurrence, in order. -/
def firstOccurStr : List String → List String
  | [] => []
  | v :: rest => v :: firstOccurStr (rest.filter fun x => x ≠ v)
termination_by l => l.length
decreasing_by
  simp only [List.length_cons]
  exact Nat.lt_succ_of_le (List.length_filter_le _ _)

/-- The matched values produced by pass 2's stitched scan: the single
first stitched hit, if any (the pass breaks on the first success). -/
def stitchVals : List String → List String
  | w0 :: w1 :: w2 :: rest =>
    match lineVal (joinStitch [w0, w1, w2]) with
    | some v => [v]
    | none => stitchVals (w1 :: w2 :: rest)
  | _ => []

/-- The scan-order sequence of normalized judge values the extractor
encounters: every pass-1 match over the window, then — only when pass 1
matched nothing — the first stitched pass-2 match. -/
def rawJudgeVals (doc : ParsedDocument) : List String :=
  if doc.lines.isEmpty then []
  else
    let wb := windowBase (doc.lines.take 600)
    let p1 := wb.1.filterMap lineVal
    p1 ++ (if p1.isEmpty then stitchVals wb.1 else [])

/-! ## Theorems -/

theorem getLast?_cons_eq (x : α) (l : List α) :
    (x :: l).getLast? =
      match l.getLast? with
      | none => some x
      | some y => some y := by
  induction l generalizing x with
  | nil => rfl
  | cons y l ih =>
    rw [List.getLast?_cons_cons, ih y]
    cases h : l.getLast? <;> simp [List.getLast?_cons_cons, ih, h]

theorem dateHits_cons (i : Nat) (ln : String) (rest : List String) :
    dateHits i (ln :: rest) =
      match parseValidDateLine ln with
      | some d => (i, ln, d) :: dateHits (i + 1) rest
      | none => dateHits (i + 1) rest := by
  unfold dateHits
  rw [List.enumFrom_cons]
  simp only [List.filterMap_cons]
  cases h : parseValidDateLine ln <;> rfl

theorem ddLoop_eq_lastHit (ls : List String) :
    ∀ (i : Nat) (acc : Option (Nat × String × PyDate)),
      ddLoop i ls acc =
        match (dateHits i ls).getLast? with
        | none => acc
        | some x => some x := by
  induction ls with
  | nil => intro i acc; rfl
  | cons ln rest ih =>
    intro i acc
    rw [dateHits_cons]
    cases h : parseValidDateLine ln with
    | none =>
      show ddLoop i (ln :: rest) acc = _
      unfold ddLoop
      rw [h]
      dsimp only
      rw [ih (i + 1) acc]
    | some d =>
      show ddLoop i (ln :: rest) acc = _
      unfold ddLoop
      rw [h]
      dsimp only
      rw [ih (i + 1) (some (i, ln, d)), getLast?_cons_eq]
      cases hrest : (dateHits (i + 1) rest).getLast? <;> rfl

/-- C1: for every document, `extract_decision_date` scans only the first
200 lines for lines that are exactly a standalone `<day> <month> <year>`
date; among the lines in that window that parse to a valid calendar date
(impossible dates such as 31 February are silently skipped because
`parseValidDateLine` rejects them), the last-occurring one wins, and the
result carries exactly one evidence span referencing the winning line —
or a null value with empty evidence when no line in the window matches. -/
theorem decision_date_last_valid_wins (lines : List String) :
    extract_decision_date lines =
      match lastValidDateHit lines with
      | some (i, ln, d) => (some d, [mkLineEv i ln])
      | none => (none, []) := by
  unfold extract_decision_date lastValidDateHit
  rw [ddLoop_eq_lastHit]
  cases h : (dateHits 0 (lines.take 200)).getLast? with
  | none => rfl
  | some x => rfl

theorem ccLineLoop_eq_firstHit (ls : List String) :
    ∀ i : Nat,
      ccLineLoop i ls =
        ((ls.enumFrom i).filterMap fun p =>
          (searchCitation p.2.data).map fun q => (p.1, p.2, citVal p.2 q)).head? := by
  induction ls with
  | nil => intro i; rfl
  | cons ln rest ih =>
    intro i
    rw [List.enumFrom_cons, List.filterMap_cons]
    show (match searchCitation ln.data with
      | some q => some (i, ln, citVal ln q)
      | none => ccLineLoop (i + 1) rest) = _
    cases h : searchCitation ln.data with
    | none => rw [ih (i + 1)]; rfl
    | some q => rfl

/-- C2: the case-citation extractor tries its three strategies in strict
priority order: (a) the first 400 normalized lines, returning on the first
matching line; (b) only if no line matched, the pattern against the full
concatenated text; (c) only if that also fails, the `/gd/s/<YYYY>_<COURT>_<NUM>`
URL slug reformatted as `[YYYY] COURT N` with leading zeros removed from the
numeric suffix — and it returns the first match only, or null with empty
evidence if all three strategies fail. -/
theorem case_citation_priority (doc : ParsedDocument) :
    (∀ i ln val, firstLineCitation doc.lines = some (i, ln, val) →
      extract_case_citation doc = (some val, [ccLineEv i ln])) ∧
    (firstLineCitation doc.lines = none →
      ∀ q, searchCitation doc.text.data = some q →
        extract_case_citation doc =
          (some (citVal doc.text q), [textEv doc.text q])) ∧
    (firstLineCitation doc.lines = none →
      searchCitation doc.text.data = none →
      ∀ p, urlSlug doc.url = some p →
        extract_case_citation doc = (some (slugCitation p), [slugEv p])) ∧
    (firstLineCitation doc.lines = none →
      searchCitation doc.text.data = none →
      urlSlug doc.url = none →
      extract_case_citation doc = (none, [])) := by
  have hline : ccLineLoop 0 (doc.lines.take 400) = firstLineCitation doc.lines := by
    rw [ccLineLoop_eq_firstHit]; rfl
  refine ⟨?_, ?_, ?_, ?_⟩
  · intro i ln val h
    unfold extract_case_citation
    rw [hline, h]
  · intro h q hq
    unfold extract_case_citation
    rw [hline, h]
    dsimp only
    rw [hq]
  · intro h ht p hp
    unfold extract_case_citation
    rw [hline, h]
    dsimp only
    rw [ht]
    dsimp only
    rw [hp]
  · intro h ht hu
    unfold extract_case_citation
    rw [hline, h]
    dsimp only
    rw [ht]
    dsimp only
    rw [hu]

/-- Witness for C2: a concrete document whose second line contains
`[2025] SGHCR 33`; strategy (a) fires on that line. -/
theorem case_citation_priority_witness :
    extract_case_citation ⟨"", "", ["x", "[2025] SGHCR 33 foo"]⟩ =
      (some "[2025] SGHCR 33", [ccLineEv 1 "[2025] SGHCR 33 foo"]) :=
  (case_citation_priority ⟨"", "", ["x", "[2025] SGHCR 33 foo"]⟩).1
    1 "[2025] SGHCR 33 foo" "[2025] SGHCR 33" (by decide)

/-- C10: the case-citation extractor and the decision-date extractor each
return exactly one evidence span when their value is non-null, and an
empty (length-zero) evidence list when the value is null. -/
theorem single_evidence_invariant (doc : ParsedDocument) :
    ((extract_case_citation doc).2.length =
      if (extract_case_citation doc).1.isSome then 1 else 0) ∧
    ((extract_decision_date doc.lines).2.length =
      if (extract_decision_date doc.lines).1.isSome then 1 else 0) := by
  constructor
  · unfold extract_case_citation
    cases ccLineLoop 0 (doc.lines.take 400) with
    | some x =>
      obtain ⟨i, ln, val⟩ := x
      rfl
    | none =>
      cases searchCitation doc.text.data with
      | some q => rfl
      | none =>
        cases urlSlug doc.url with
        | some p => rfl
        | none => rfl
  · unfold extract_decision_date
    cases ddLoop 0 (doc.lines.take 200) none with
    | some x =>
      obtain ⟨i, ln, d⟩ := x
      rfl
    | none => rfl

/-- C3: whenever the quality gate returns, its boolean is true iff its
warning list is empty; the all-empty record yields `ok=True` with zero
warnings for every processing date, and a record whose citation is
`"garbage"` yields `ok=False` with exactly one warning naming the
unexpected citation format. -/
theorem quality_gate_ok_iff_no_warnings :
    (∀ (r : ExtractedCase) (today : PyDate) (okv : Bool) (errs : List String),
      validate_extracted_case r today = Except.ok (okv, errs) →
      (okv = true ↔ errs = [])) ∧
    (∀ today : PyDate,
      validate_extracted_case emptyRecord today = Except.ok (true, [])) ∧
    (∀ today : PyDate,
      validate_extracted_case garbageRecord today =
        Except.ok (false, ["case_citation format unexpected: garbage"])) := by
  refine ⟨?_, ?_, ?_⟩
  · intro r today okv errs h
    unfold validate_extracted_case at h
    cases hd : dateWarns r.decision_date today with
    | error e => rw [hd] at h; exact Except.noConfusion h
    | ok e2 =>
      rw [hd] at h
      dsimp only at h
      have h2 := Except.ok.inj h
      rw [Prod.mk.injEq] at h2
      obtain ⟨hok, herrs⟩ := h2
      subst hok
      subst herrs
      exact List.isEmpty_iff
  · intro today; rfl
  · intro today; rfl

/-- Witness for C3: the general iff instantiated on the all-empty record
at a concrete processing date. -/
theorem quality_gate_ok_iff_no_warnings_witness :
    (true = true) ↔ (([] : List String) = []) :=
  quality_gate_ok_iff_no_warnings.1 emptyRecord ⟨2026, 10, 12⟩ true []
    (quality_gate_ok_iff_no_warnings.2.1 ⟨2026, 10, 12⟩)

/-- C9 (code bug): the spec promises the gate never raises, but when the
processing date is 29 February of a leap year and a decision date is
present, `date.today().replace(year=date.today().year + 1)` raises
`ValueError` in CPython — modelled here by the gate returning the
exception instead of a verdict. -/
theorem quality_gate_raises_on_leap_day :
    validate_extracted_case ⟨"", none, some ⟨2020, 1, 1⟩, [], [], ⟨[], []⟩⟩
      ⟨2024, 2, 29⟩ =
      Except.error "ValueError: day is out of range for month" := rfl

theorem mem_judgeWarns (js : List (Option String)) (s : String)
    (hs : some s ∈ js) (hne : pyStrip s ≠ "") (hlt : (pyStrip s).length < 4) :
    ("suspicious judge token: " ++ pyRepr (pyStrip s)) ∈ judgeWarns js := by
  induction js with
  | nil => exact absurd hs (List.not_mem_nil _)
  | cons j rest ih =>
    rcases List.mem_cons.mp hs with h1 | h1
    · subst h1
      show _ ∈ judgeWarns (some s :: rest)
      simp only [judgeWarns]
      rw [if_pos ⟨hne, hlt⟩]
      exact List.mem_append_left _ (List.mem_singleton.mpr rfl)
    · cases j with
      | none =>
        show _ ∈ judgeWarns (none :: rest)
        simpa only [judgeWarns] using ih h1
      | some t =>
        show _ ∈ judgeWarns (some t :: rest)
        simp only [judgeWarns]
        exact List.mem_append_right _ (ih h1)

/-- C8 (amended): whenever the quality gate returns, it emits a warning
for each non-null judge token whose trimmed form is *non-empty* and
shorter than 4 characters.  (The unamended claim — a warning for *every*
token trimmed to fewer than 4 characters — fails for tokens that trim to
the empty string; see the counterexample.) -/
theorem short_judge_token_warned (r : ExtractedCase) (today : PyDate)
    (okv : Bool) (errs : List String)
    (h : validate_extracted_case r today = Except.ok (okv, errs))
    (s : String) (hs : some s ∈ r.presiding_judges)
    (hne : pyStrip s ≠ "") (hlt : (pyStrip s).length < 4) :
    ("suspicious judge token: " ++ pyRepr (pyStrip s)) ∈ errs := by
  unfold validate_extracted_case at h
  cases hd : dateWarns r.decision_date today with
  | error e => rw [hd] at h; exact Except.noConfusion h
  | ok e2 =>
    rw [hd] at h
    dsimp only at h
    have h2 := Except.ok.inj h
    rw [Prod.mk.injEq] at h2
    obtain ⟨hok, herrs⟩ := h2
    subst herrs
    exact List.mem_append_left _
      (List.mem_append_right _ (mem_judgeWarns r.presiding_judges s hs hne hlt))

/-- Witness for C8 (amended): the judge token `"AB"` (trimmed length 2)
produces its warning in the returned list. -/
theorem short_judge_token_warned_witness :
    ("suspicious judge token: " ++ pyRepr (pyStrip "AB")) ∈
      ["suspicious judge token: 'AB'"] :=
  short_judge_token_warned ⟨"", none, none, [some "AB"], [], ⟨[], []⟩⟩
    ⟨2026, 10, 12⟩ false ["suspicious judge token: 'AB'"] rfl "AB"
    (by decide) (by decide) (by decide)

/-- C8 counterexample: the claim as stated is false — the record whose
only judge token is the non-null string `""` (trimmed form shorter than 4
characters) yields *zero* warnings, because the gate additionally requires
the trimmed token to be non-empty. -/
theorem short_judge_token_counterexample :
    validate_extracted_case ⟨"", none, none, [some ""], [], ⟨[], []⟩⟩
        ⟨2026, 10, 12⟩ = Except.ok (true, []) ∧
      (pyStrip "").length < 4 :=
  ⟨rfl, by decide⟩

theorem firstOccurDedup_nil : firstOccurDedup [] = [] := by
  unfold firstOccurDedup
  rfl

theorem firstOccurDedup_cons (r : LegalReference) (rest : List LegalReference) :
    firstOccurDedup (r :: rest) =
      r :: firstOccurDedup (rest.filter fun x => keyOf x ≠ keyOf r) := by
  conv_lhs => unfold firstOccurDedup

theorem dedupRefsAux_eq_firstOccur (l : List LegalReference) :
    ∀ seen, dedupRefsAux seen l =
      firstOccurDedup (l.filter fun r => !(seen.contains (keyOf r))) := by
  induction l with
  | nil => intro seen; simp [dedupRefsAux, firstOccurDedup_nil]
  | cons r rest ih =>
    intro seen
    by_cases hc : seen.contains (keyOf r) = true
    · simp only [dedupRefsAux, hc, if_true, List.filter_cons, Bool.not_true]
      simpa using ih seen
    · rw [Bool.not_eq_true] at hc
      simp only [dedupRefsAux, hc, Bool.false_eq_true, if_false, List.filter_cons,
        Bool.not_false, if_true]
      rw [firstOccurDedup_cons, ih (keyOf r :: seen), List.filter_filter]
      have hpred : ∀ x ∈ rest,
          (!((keyOf r :: seen).contains (keyOf x))) =
            (decide (keyOf x ≠ keyOf r) && !(seen.contains (keyOf x))) := by
        intro x _
        rw [List.contains_cons]
        by_cases hk : keyOf x = keyOf r
        · simp [hk]
        · simp [hk]
      rw [List.filter_congr hpred]

theorem map_keyOf_dedupRefsAux (l : List LegalReference) :
    ∀ seen, (dedupRefsAux seen l).map keyOf = kd seen (l.map keyOf) := by
  induction l with
  | nil => intro seen; rfl
  | cons r rest ih =>
    intro seen
    by_cases hc : seen.contains (keyOf r) = true
    · simp only [dedupRefsAux, List.map_cons, kd, hc, if_true]
      exact ih seen
    · rw [Bool.not_eq_true] at hc
      simp only [dedupRefsAux, List.map_cons, kd, hc, Bool.false_eq_true, if_false]
      rw [ih (keyOf r :: seen)]

theorem kd_append (xs : List (String × String × String)) :
    ∀ seen ys, kd seen (xs ++ ys) = kd seen xs ++ kd (seenAfter seen xs) ys := by
  induction xs with
  | nil => intro seen ys; rfl
  | cons k xs ih =>
    intro seen ys
    by_cases hc : seen.contains k = true
    · simp only [List.cons_append, kd, hc, if_true, seenAfter, List.foldl_cons]
      exact ih seen ys
    · rw [Bool.not_eq_true] at hc
      simp only [List.cons_append, kd, hc, Bool.false_eq_true, if_false, seenAfter,
        List.foldl_cons, List.cons_append]
      rw [List.append_eq, ih (k :: seen) ys]
      rfl

theorem contains_seenAfter (xs : List (String × String × String)) :
    ∀ seen k, (seenAfter seen xs).contains k = (seen.contains k || xs.contains k) := by
  induction xs with
  | nil => intro seen k; simp [seenAfter]
  | cons x xs ih =>
    intro seen k
    have hstep : seenAfter seen (x :: xs) =
        seenAfter (if seen.contains x then seen else x :: seen) xs := rfl
    rw [hstep, ih]
    by_cases hx : seen.contains x = true
    · rw [if_pos hx, List.contains_cons]
      cases hkx : k == x with
      | true =>
        have hk : k = x := eq_of_beq hkx
        subst hk
        rw [hx]
        simp only [Bool.true_or]
      | false => simp only [Bool.false_or]
    · rw [Bool.not_eq_true] at hx
      rw [if_neg (by rw [hx]; exact (by decide)), List.contains_cons,
        List.contains_cons]
      cases h1 : k == x <;> cases h2 : seen.contains k <;> simp

theorem kd_eq_nil_of_subsumed (ys : List (String × String × String)) :
    ∀ seen, (∀ k ∈ ys, seen.contains k = true) → kd seen ys = [] := by
  induction ys with
  | nil => intro seen _; rfl
  | cons y ys ih =>
    intro seen h
    simp only [kd, h y (List.mem_cons_self y ys), if_true]
    exact ih seen fun k hk => h k (List.mem_cons_of_mem _ hk)

theorem seenAfter_eq_of_subsumed (ys : List (String × String × String)) :
    ∀ seen, (∀ k ∈ ys, seen.contains k = true) → seenAfter seen ys = seen := by
  induction ys with
  | nil => intro seen _; rfl
  | cons y ys ih =>
    intro seen h
    have hstep : seenAfter seen (y :: ys) =
        seenAfter (if seen.contains y then seen else y :: seen) ys := rfl
    rw [hstep, if_pos (h y (List.mem_cons_self y ys))]
    exact ih seen fun k hk => h k (List.mem_cons_of_mem _ hk)

theorem mem_kd_of_mem (ys : List (String × String × String)) :
    ∀ seen k, k ∈ ys → seen.contains k = false → k ∈ kd seen ys := by
  induction ys with
  | nil => intro _ _ h _; cases h
  | cons y ys ih =>
    intro seen k hk hs
    by_cases hky : k = y
    · subst hky
      simp only [kd, hs, Bool.false_eq_true, if_false]
      exact List.mem_cons_self _ _
    · have hk' : k ∈ ys := by
        rcases List.mem_cons.mp hk with h1 | h1
        · exact absurd h1 hky
        · exact h1
      by_cases hc : seen.contains y = true
      · simp only [kd, hc, if_true]
        exact ih seen k hk' hs
      · rw [Bool.not_eq_true] at hc
        simp only [kd, hc, Bool.false_eq_true, if_false]
        refine List.mem_cons_of_mem _ (ih (y :: seen) k hk' ?_)
        rw [List.contains_cons, hs]
        have : (k == y) = false := beq_false_of_ne hky
        rw [this]
        rfl

theorem kd_nodup_aux (ys : List (String × String × String)) :
    ∀ seen, (kd seen ys).Nodup ∧ (∀ k ∈ kd seen ys, seen.contains k = false) := by
  induction ys with
  | nil => intro seen; exact ⟨List.nodup_nil, fun k hk => absurd hk (List.not_mem_nil _)⟩
  | cons y ys ih =>
    intro seen
    by_cases hc : seen.contains y = true
    · simp only [kd, hc, if_true]
      exact ih seen
    · rw [Bool.not_eq_true] at hc
      simp only [kd, hc, Bool.false_eq_true, if_false]
      obtain ⟨hnd, hmem⟩ := ih (y :: seen)
      refine ⟨List.nodup_cons.mpr ⟨fun hy => ?_, hnd⟩, fun k hk => ?_⟩
      · have h1 := hmem y hy
        rw [List.contains_cons] at h1
        simp at h1
      · rcases List.mem_cons.mp hk with h1 | h1
        · subst h1; exact hc
        · have h2 := hmem k h1
          rw [List.contains_cons] at h2
          exact (Bool.or_eq_false_iff.mp h2).2

theorem lineRefs_map_keyOf (i : Nat) (ln : String) :
    (lineRefs i ln).map keyOf = lineKeys ln := by
  simp only [lineRefs, lineKeys, List.map_append, List.map_map]
  rfl

theorem rawKeys_aux (lines : List String) :
    ∀ n, ((((lines.enumFrom n).map fun p => lineRefs p.1 p.2).flatten).map keyOf) =
      keysOfLines lines := by
  induction lines with
  | nil => intro n; rfl
  | cons ln rest ih =>
    intro n
    rw [List.enumFrom_cons]
    simp only [List.map_cons, List.flatten_cons, List.map_append]
    rw [lineRefs_map_keyOf n ln, ih (n + 1)]
    rfl

theorem rawLegalRefs_keys (lines : List String) :
    (rawLegalRefs lines).map keyOf = keysOfLines (lines.take 2000) := by
  unfold rawLegalRefs
  exact rawKeys_aux (lines.take 2000) 0

theorem keysOfLines_append (a b : List String) :
    keysOfLines (a ++ b) = keysOfLines a ++ keysOfLines b := by
  simp [keysOfLines]

theorem keysOfLines_cons (ln : String) (rest : List String) :
    keysOfLines (ln :: rest) = lineKeys ln ++ keysOfLines rest := rfl

theorem seenAfter_contains_of_mem
    (sA B : List (String × String × String)) :
    ∀ k ∈ B, (seenAfter sA B).contains k = true := by
  intro k hk
  rw [contains_seenAfter]
  have hB : B.contains k = true := List.elem_eq_true_of_mem hk
  rw [hB, Bool.or_true]

theorem kd_dup_block (A B C : List (String × String × String)) :
    kd [] (A ++ (B ++ (B ++ C))) = kd [] (A ++ (B ++ C)) := by
  rw [kd_append A [] (B ++ (B ++ C)), kd_append B (seenAfter [] A) (B ++ C),
    kd_append B (seenAfter (seenAfter [] A) B) C,
    kd_eq_nil_of_subsumed B (seenAfter (seenAfter [] A) B)
      (seenAfter_contains_of_mem _ B),
    seenAfter_eq_of_subsumed B (seenAfter (seenAfter [] A) B)
      (seenAfter_contains_of_mem _ B),
    kd_append A [] (B ++ C), kd_append B (seenAfter [] A) C]
  rw [List.nil_append]

/-- C6: the legal-references extractor's returned list is the
first-occurrence deduplication of the raw scan by the key
(ref_type, lowercased citation, pinpoint) — so its keys are pairwise
distinct — and, for every document that stays within the 2000-line scan
window after the insertion, inserting a duplicate copy of a
citation-bearing line immediately after the original leaves the
deduplicated reference list unchanged at the level of the dedup keys
(exactly one reference per key of that line, not two). -/
theorem legal_references_dedup_first_seen :
    (∀ doc : ParsedDocument,
      (extract_legal_references doc).1 = firstOccurDedup (rawLegalRefs doc.lines) ∧
      (((extract_legal_references doc).1).map keyOf).Nodup) ∧
    (∀ (url text l : String) (pre post : List String),
      pre.length + post.length + 2 ≤ 2000 →
      (((extract_legal_references ⟨url, text, pre ++ l :: l :: post⟩).1).map keyOf =
        ((extract_legal_references ⟨url, text, pre ++ l :: post⟩).1).map keyOf) ∧
      (∀ k ∈ lineKeys l,
        k ∈ ((extract_legal_references ⟨url, text, pre ++ l :: l :: post⟩).1).map keyOf)) := by
  have hfst : ∀ doc : ParsedDocument,
      (extract_legal_references doc).1 = dedupRefsAux [] (rawLegalRefs doc.lines) :=
    fun doc => rfl
  constructor
  · intro doc
    constructor
    · rw [hfst doc, dedupRefsAux_eq_firstOccur]
      congr 1
      have hall : ∀ r ∈ rawLegalRefs doc.lines,
          (!(List.contains [] (keyOf r))) = true := fun r _ => rfl
      rw [List.filter_congr hall, List.filter_true]
    · rw [hfst doc, map_keyOf_dedupRefsAux]
      exact (kd_nodup_aux _ []).1
  · intro url text l pre post h
    have h2 : (pre ++ l :: l :: post).length ≤ 2000 := by
      simp only [List.length_append, List.length_cons]
      omega
    have h1 : (pre ++ l :: post).length ≤ 2000 := by
      simp only [List.length_append, List.length_cons]
      omega
    have key2 : ((extract_legal_references ⟨url, text, pre ++ l :: l :: post⟩).1).map keyOf
        = kd [] (keysOfLines pre ++ (lineKeys l ++ (lineKeys l ++ keysOfLines post))) := by
      rw [hfst _, map_keyOf_dedupRefsAux, rawLegalRefs_keys]
      rw [show (ParsedDocument.mk url text (pre ++ l :: l :: post)).lines
        = pre ++ l :: l :: post from rfl]
      rw [List.take_of_length_le h2, keysOfLines_append, keysOfLines_cons,
        keysOfLines_cons]
    have key1 : ((extract_legal_references ⟨url, text, pre ++ l :: post⟩).1).map keyOf
        = kd [] (keysOfLines pre ++ (lineKeys l ++ keysOfLines post)) := by
      rw [hfst _, map_keyOf_dedupRefsAux, rawLegalRefs_keys]
      rw [show (ParsedDocument.mk url text (pre ++ l :: post)).lines
        = pre ++ l :: post from rfl]
      rw [List.take_of_length_le h1, keysOfLines_append, keysOfLines_cons]
    constructor
    · rw [key2, key1, kd_dup_block]
    · intro k hk
      rw [key2]
      exact mem_kd_of_mem _ [] k
        (List.mem_append_right _ (List.mem_append_left _ hk)) rfl

theorem legal_references_dedup_first_seen_witness :
    ((extract_legal_references
        ⟨"", "", ["[2020] SGCA 1", "[2020] SGCA 1"]⟩).1).map keyOf =
      ((extract_legal_references ⟨"", "", ["[2020] SGCA 1"]⟩).1).map keyOf :=
  (legal_references_dedup_first_seen.2 "" "" "[2020] SGCA 1" [] [] (by decide)).1

theorem extract_refs_keys (doc : ParsedDocument) :
    ((extract_legal_references doc).1).map keyOf =
      kd [] (keysOfLines (doc.lines.take 2000)) := by
  rw [show (extract_legal_references doc).1
      = dedupRefsAux [] (rawLegalRefs doc.lines) from rfl,
    map_keyOf_dedupRefsAux, rawLegalRefs_keys]

theorem keysOfLines_replicate_empty (n : Nat) :
    keysOfLines (List.replicate n "") = [] := by
  induction n with
  | zero => rfl
  | succ n ih => rw [List.replicate_succ, keysOfLines_cons, ih]; rfl

theorem legal_references_duplicate_cap_counterexample :
    ¬ ((extract_legal_references
          ⟨"", "", "[2020] SGCA 1" :: "[2020] SGCA 1" ::
            (List.replicate 1998 "" ++ ["[2021] SGCA 2"])⟩).1 =
        (extract_legal_references
          ⟨"", "", "[2020] SGCA 1" ::
            (List.replicate 1998 "" ++ ["[2021] SGCA 2"])⟩).1) := by
  intro h
  have hmap := congrArg (List.map keyOf) h
  rw [extract_refs_keys, extract_refs_keys] at hmap
  dsimp only at hmap
  rw [show (2000 : Nat) = 1999 + 1 from rfl, List.take_succ_cons,
    show (1999 : Nat) = 1998 + 1 from rfl, List.take_succ_cons,
    List.take_left' (List.length_replicate 1998 "")] at hmap
  rw [show (1998 + 1 + 1 : Nat) = 2000 from rfl] at hmap
  rw [List.take_of_length_le (by
    simp only [List.length_cons, List.length_append, List.length_replicate,
      List.length_nil]
    omega)] at hmap
  rw [keysOfLines_cons, keysOfLines_cons, keysOfLines_replicate_empty,
    keysOfLines_cons, keysOfLines_append, keysOfLines_replicate_empty] at hmap
  exact absurd hmap (by decide)

theorem loopUp_inv (header : List String) (idxs : List Nat) :
    ∀ (cl : List String) (ev : List EvidenceSpan),
      (∀ s ∈ cl, strContains "claimant" (pyLower s) = false ∧
        strContains "defendant" (pyLower s) = false) →
      ∀ s ∈ (loopUp header idxs cl ev).1,
        strContains "claimant" (pyLower s) = false ∧
        strContains "defendant" (pyLower s) = false := by
  induction idxs with
  | nil => intro cl ev hcl s hs; exact hcl s hs
  | cons i restIdx ih =>
    intro cl ev hcl s hs
    simp only [loopUp] at hs
    by_cases h0 : clean_name (header.getD i "") = ""
    · rw [if_pos h0] at hs
      exact ih cl ev hcl s hs
    · rw [if_neg h0] at hs
      by_cases h1 : (strContains "grounds of decision" (pyLower (clean_name (header.getD i ""))) ||
          strContains "judgment" (pyLower (clean_name (header.getD i "")))) = true
      · rw [if_pos h1] at hs
        exact hcl s hs
      · rw [if_neg h1] at hs
        by_cases h2 : (strContains "claimant" (pyLower (clean_name (header.getD i ""))) ||
            strContains "defendant" (pyLower (clean_name (header.getD i "")))) = true
        · rw [if_pos h2] at hs
          exact ih cl ev hcl s hs
        · rw [if_neg h2] at hs
          rw [Bool.or_eq_true, not_or] at h2
          obtain ⟨h2a, h2b⟩ := h2
          rw [Bool.not_eq_true] at h2a h2b
          have hcl' : ∀ t ∈ clean_name (header.getD i "") :: cl,
              strContains "claimant" (pyLower t) = false ∧
              strContains "defendant" (pyLower t) = false := by
            intro t ht
            rcases List.mem_cons.mp ht with h3 | h3
            · subst h3; exact ⟨h2a, h2b⟩
            · exact hcl t h3
          by_cases h4 : 3 ≤ (clean_name (header.getD i "") :: cl).length
          · rw [if_pos h4] at hs
            exact hcl' s hs
          · rw [if_neg h4] at hs
            exact ih _ _ hcl' s hs

theorem loopDown_inv (header : List String) (idxs : List Nat) :
    ∀ (dl : List String) (ev : List EvidenceSpan),
      (∀ s ∈ dl, strContains "claimant" (pyLower s) = false ∧
        strContains "defendant" (pyLower s) = false) →
      ∀ s ∈ (loopDown header idxs dl ev).1,
        strContains "claimant" (pyLower s) = false ∧
        strContains "defendant" (pyLower s) = false := by
  induction idxs with
  | nil => intro dl ev hdl s hs; exact hdl s hs
  | cons i restIdx ih =>
    intro dl ev hdl s hs
    simp only [loopDown] at hs
    by_cases h0 : clean_name (header.getD i "") = ""
    · rw [if_pos h0] at hs
      exact ih dl ev hdl s hs
    · rw [if_neg h0] at hs
      by_cases h1 : strContains "grounds of decision"
          (pyLower (clean_name (header.getD i ""))) = true
      · rw [if_pos h1] at hs
        exact hdl s hs
      · rw [if_neg h1] at hs
        by_cases h2 : (strContains "claimant" (pyLower (clean_name (header.getD i ""))) ||
            strContains "defendant" (pyLower (clean_name (header.getD i "")))) = true
        · rw [if_pos h2] at hs
          exact ih dl ev hdl s hs
        · rw [if_neg h2] at hs
          rw [Bool.or_eq_true, not_or] at h2
          obtain ⟨h2a, h2b⟩ := h2
          rw [Bool.not_eq_true] at h2a h2b
          have hdl' : ∀ t ∈ dl ++ [clean_name (header.getD i "")],
              strContains "claimant" (pyLower t) = false ∧
              strContains "defendant" (pyLower t) = false := by
            intro t ht
            rcases List.mem_append.mp ht with h3 | h3
            · exact hdl t h3
            · rw [List.mem_singleton.mp h3]
              exact ⟨h2a, h2b⟩
          by_cases h4 : 3 ≤ (dl ++ [clean_name (header.getD i "")]).length
          · rw [if_pos h4] at hs
            exact hdl' s hs
          · rw [if_neg h4] at hs
            exact ih _ _ hdl' s hs

/-- C7: the returned claimant list never contains a name with the word
`claimant` (lowercased) and the returned defendant list never contains a
name with the word `defendant` — the section-label noise is filtered out —
and when neither Strategy A's standalone `between` line (first 450 lines)
nor Strategy B's standalone `v` line (first 250 lines) is found, the
extractor returns empty `Parties` with an empty evidence list rather than
an error. -/
theorem parties_noise_filtered_and_empty_default :
    (∀ doc : ParsedDocument,
      (∀ s ∈ (extract_parties doc).1.claimants,
        strContains "claimant" (pyLower s) = false) ∧
      (∀ s ∈ (extract_parties doc).1.defendants,
        strContains "defendant" (pyLower s) = false)) ∧
    (∀ doc : ParsedDocument,
      betweenIdx (doc.lines.take 450) = none →
      ((doc.lines.take 450).take 250).findIdx? isVLine = none →
      extract_parties doc = (⟨[], []⟩, [])) := by
  constructor
  · intro doc
    simp only [extract_parties]
    cases hb : betweenIdx (doc.lines.take 450) with
    | some ib =>
      dsimp only
      constructor
      · intro s hs
        have hp := (List.mem_filter.mp hs).2
        exact (of_decide_eq_true hp).2
      · intro s hs
        have hp := (List.mem_filter.mp hs).2
        exact (of_decide_eq_true hp).2
    | none =>
      cases hv : ((doc.lines.take 450).take 250).findIdx? isVLine with
      | some vi =>
        dsimp only
        constructor
        · intro s hs
          exact (loopUp_inv _ _ [] [] (fun t ht => absurd ht (List.not_mem_nil t))
            s hs).1
        · intro s hs
          exact (loopDown_inv _ _ [] [] (fun t ht => absurd ht (List.not_mem_nil t))
            s hs).2
      | none =>
        dsimp only
        exact ⟨fun s hs => absurd hs (List.not_mem_nil s),
          fun s hs => absurd hs (List.not_mem_nil s)⟩
  · intro doc h1 h2
    simp only [extract_parties]
    rw [h1]
    dsimp only
    rw [h2]

/-- Witness for C7: a document with neither marker yields empty parties
and no evidence. -/
theorem parties_noise_filtered_and_empty_default_witness :
    extract_parties ⟨"", "", ["hello"]⟩ = (⟨[], []⟩, []) :=
  parties_noise_filtered_and_empty_default.2 ⟨"", "", ["hello"]⟩
    (by decide) (by decide)

theorem tmStep_inv (idx : Nat) (line : String)
    (st : List String × List EvidenceSpan) (h : JudgesOk st.1) :
    JudgesOk ((tmStep idx line st).2).1 := by
  unfold tmStep
  by_cases hs : pyStrip line = ""
  · rw [if_pos hs]
    exact h
  · rw [if_neg hs]
    cases hm : tryMatchCore (pyStrip line).data with
    | none => exact h
    | some p =>
      dsimp only
      by_cases hc : st.1.contains (mkJudgeVal p.1 p.2) = true
      · rw [if_pos hc]
        exact h
      · rw [Bool.not_eq_true] at hc
        rw [if_neg (by rw [hc]; exact (by decide))]
        have hnm : mkJudgeVal p.1 p.2 ∉ st.1 := fun hmem => by
          have hc2 : List.elem (mkJudgeVal p.1 p.2) st.1 = false := hc
          rw [List.elem_eq_true_of_mem hmem] at hc2
          cases hc2
        constructor
        · intro j hj
          rcases List.mem_append.mp hj with h1 | h1
          · exact h.1 j h1
          · refine ⟨line, p.1, p.2, ?_, List.mem_singleton.mp h1⟩
            unfold tryMatchStr
            rw [if_neg hs, hm]
        · rw [List.nodup_append]
          exact ⟨h.2, List.nodup_singleton _,
            fun a ha hb => hnm (List.mem_singleton.mp hb ▸ ha)⟩

theorem pass1_inv (window : List String) :
    ∀ (base : Nat) (st : List String × List EvidenceSpan),
      JudgesOk st.1 → JudgesOk ((pass1 base window st).1) := by
  induction window with
  | nil => intro base st h; exact h
  | cons ln rest ih =>
    intro base st h
    exact ih (base + 1) _ (tmStep_inv base ln st h)

theorem pass2_inv (window : List String) :
    ∀ (base : Nat) (st : List String × List EvidenceSpan),
      JudgesOk st.1 → JudgesOk ((pass2 base window st).1) := by
  induction window with
  | nil => intro base st h; exact h
  | cons w0 rest ih =>
    intro base st h
    match rest with
    | [] => exact h
    | [w1] => exact h
    | w1 :: w2 :: rest' =>
      show JudgesOk ((pass2 base (w0 :: w1 :: w2 :: rest') st).1)
      unfold pass2
      dsimp only
      by_cases hr : (tmStep base (joinStitch [w0, w1, w2]) st).1 = true
      · rw [if_pos hr]
        exact tmStep_inv base _ st h
      · rw [Bool.not_eq_true] at hr
        rw [if_neg (by rw [hr]; exact (by decide))]
        exact ih (base + 1) _ (tmStep_inv base _ st h)

theorem dedupEv_nodup_aux (evs : List EvidenceSpan) :
    ∀ seen, ((dedupEvAux seen evs).map fun e => (e.location, e.snippet)).Nodup ∧
      (∀ k ∈ (dedupEvAux seen evs).map fun e => (e.location, e.snippet),
        seen.contains k = false) := by
  induction evs with
  | nil =>
    intro seen
    exact ⟨List.nodup_nil, fun k hk => absurd hk (List.not_mem_nil k)⟩
  | cons e rest ih =>
    intro seen
    by_cases hc : seen.contains (e.location, e.snippet) = true
    · simp only [dedupEvAux, hc, if_true]
      exact ih seen
    · rw [Bool.not_eq_true] at hc
      simp only [dedupEvAux, hc, Bool.false_eq_true, if_false, List.map_cons]
      obtain ⟨hnd, hmem⟩ := ih ((e.location, e.snippet) :: seen)
      refine ⟨List.nodup_cons.mpr ⟨fun hy => ?_, hnd⟩, fun k hk => ?_⟩
      · have h1 := hmem _ hy
        rw [List.contains_cons] at h1
        simp at h1
      · rcases List.mem_cons.mp hk with h1 | h1
        · subst h1; exact hc
        · have h2 := hmem k h1
          rw [List.contains_cons] at h2
          exact (Bool.or_eq_false_iff.mp h2).2

theorem firstOccurStr_nil : firstOccurStr [] = [] := by
  unfold firstOccurStr
  rfl

theorem firstOccurStr_cons (v : String) (rest : List String) :
    firstOccurStr (v :: rest) =
      v :: firstOccurStr (rest.filter fun x => x ≠ v) := by
  conv_lhs => unfold firstOccurStr

theorem tmStep_eq (idx : Nat) (line : String)
    (st : List String × List EvidenceSpan) :
    tmStep idx line st =
      match lineVal line with
      | some v =>
        (true,
          (if st.1.contains v then st.1 else st.1 ++ [v],
           st.2 ++ [⟨"line", "lines[" ++ toString idx ++ "]",
             pyTake 200 (pyStrip line)⟩]))
      | none => (false, st) := by
  simp only [tmStep, lineVal, tryMatchStr]
  by_cases hs : pyStrip line = ""
  · rw [if_pos hs, if_pos hs]
    rfl
  · rw [if_neg hs, if_neg hs]
    cases hm : tryMatchCore (pyStrip line).data with
    | none => rfl
    | some p => rfl

theorem pass1_judges (window : List String) :
    ∀ (base : Nat) (st : List String × List EvidenceSpan),
      (pass1 base window st).1 = judgesFold st.1 (window.filterMap lineVal) := by
  induction window with
  | nil => intro base st; rfl
  | cons ln rest ih =>
    intro base st
    show (pass1 (base + 1) rest (tmStep base ln st).2).1 = _
    rw [ih (base + 1) (tmStep base ln st).2, List.filterMap_cons]
    cases hv : lineVal ln with
    | none =>
      have h2 : (tmStep base ln st).2 = st := by rw [tmStep_eq, hv]
      rw [h2]
    | some v =>
      have h2 : ((tmStep base ln st).2).1 =
          if st.1.contains v then st.1 else st.1 ++ [v] := by
        rw [tmStep_eq, hv]
      show judgesFold ((tmStep base ln st).2).1 _ = judgesFold _ (v :: _)
      rw [h2]
      rfl

theorem pass2_judges (window : List String) :
    ∀ (base : Nat) (st : List String × List EvidenceSpan),
      (pass2 base window st).1 = judgesFold st.1 (stitchVals window) := by
  induction window with
  | nil => intro base st; rfl
  | cons w0 rest ih =>
    intro base st
    match rest with
    | [] => rfl
    | [w1] => rfl
    | w1 :: w2 :: rest2 =>
      show (pass2 base (w0 :: w1 :: w2 :: rest2) st).1 = _
      unfold pass2
      dsimp only
      cases hv : lineVal (joinStitch [w0, w1, w2]) with
      | some v =>
        rw [tmStep_eq, hv]
        dsimp only
        rw [show stitchVals (w0 :: w1 :: w2 :: rest2) = [v] from by
          conv_lhs => unfold stitchVals
          rw [hv]]
        rfl
      | none =>
        rw [tmStep_eq, hv]
        dsimp only
        rw [show stitchVals (w0 :: w1 :: w2 :: rest2)
            = stitchVals (w1 :: w2 :: rest2) from by
          conv_lhs => unfold stitchVals
          rw [hv]]
        exact ih (base + 1) st

theorem contains_append_single (js : List String) (v x : String) :
    (js ++ [v]).contains x = (js.contains x || x == v) := by
  induction js with
  | nil =>
    rw [List.nil_append, List.contains_cons]
    cases hxv : x == v <;> rfl
  | cons j rest ih =>
    rw [List.cons_append, List.contains_cons, List.contains_cons, ih,
      Bool.or_assoc]

theorem judgesFold_eq_firstOccur (vals : List String) :
    ∀ js, judgesFold js vals =
      js ++ firstOccurStr (vals.filter fun v => !(js.contains v)) := by
  induction vals with
  | nil =>
    intro js
    rw [List.filter_nil, firstOccurStr_nil, List.append_nil]
    rfl
  | cons v rest ih =>
    intro js
    by_cases hc : js.contains v = true
    · show judgesFold (if js.contains v then js else js ++ [v]) rest = _
      rw [if_pos hc, ih js]
      simp only [List.filter_cons, hc, Bool.not_true, Bool.false_eq_true,
        if_false]
    · have hc2 : js.contains v = false := by rwa [Bool.not_eq_true] at hc
      show judgesFold (if js.contains v then js else js ++ [v]) rest = _
      rw [if_neg hc, ih (js ++ [v])]
      simp only [List.filter_cons, hc2, Bool.not_false, if_true,
        firstOccurStr_cons, List.filter_filter]
      rw [List.append_assoc]
      have hpred : ∀ x ∈ rest,
          (!((js ++ [v]).contains x)) =
            (decide (x ≠ v) && !(js.contains x)) := by
        intro x _
        rw [contains_append_single]
        by_cases hx : x = v
        · subst hx
          rw [beq_self_eq_true, Bool.or_true]
          simp
        · have hxv : (x == v) = false := by
            cases hxv2 : x == v with
            | true => exact absurd (eq_of_beq hxv2) hx
            | false => rfl
          rw [hxv, Bool.or_false]
          simp [hx]
      rw [List.filter_congr hpred]
      rfl

theorem judgesFold_nil_eq (vals : List String) :
    judgesFold [] vals = firstOccurStr vals := by
  rw [judgesFold_eq_firstOccur vals []]
  rw [List.nil_append]
  congr 1
  apply List.filter_eq_self.mpr
  intro a _
  rfl

/-- C5: the judges list returned by the extractor is exactly the
first-occurrence deduplication (by exact normalized string, preserving
first-seen order) of the scan-order sequence of matched values, every one
of which is the canonical `Name Title` normalization of a successful
match — whichever of the three shapes matched (in particular the single
prefix-shaped line `AR Tan Yu Qing` yields exactly `["Tan Yu Qing AR"]`);
the judges list is therefore duplicate-free, and the evidence list is
deduplicated by (location, snippet). -/
theorem judges_normalized_and_deduped :
    (∀ doc : ParsedDocument,
      (extract_presiding_judges doc).1 = firstOccurStr (rawJudgeVals doc) ∧
      (∀ j ∈ (extract_presiding_judges doc).1,
        ∃ s nm t, tryMatchStr s = some (nm, t) ∧ j = mkJudgeVal nm t) ∧
      (extract_presiding_judges doc).1.Nodup ∧
      (((extract_presiding_judges doc).2).map fun e =>
        (e.location, e.snippet)).Nodup) ∧
    extract_presiding_judges ⟨"", "", ["AR Tan Yu Qing"]⟩ =
      (["Tan Yu Qing AR"], [⟨"line", "lines[0]", "AR Tan Yu Qing"⟩]) := by
  constructor
  · intro doc
    by_cases hemp : doc.lines.isEmpty = true
    · have hx : extract_presiding_judges doc = ([], []) := by
        unfold extract_presiding_judges
        rw [if_pos hemp]
      have hr : rawJudgeVals doc = [] := by
        unfold rawJudgeVals
        rw [if_pos hemp]
      rw [hx, hr, firstOccurStr_nil]
      exact ⟨rfl, fun j hj => absurd hj (List.not_mem_nil j), List.nodup_nil,
        List.nodup_nil⟩
    · have hok : JudgesOk (extract_presiding_judges doc).1 := by
        unfold extract_presiding_judges
        rw [if_neg hemp]
        dsimp only
        by_cases h1 : (pass1 (windowBase (doc.lines.take 600)).2
            (windowBase (doc.lines.take 600)).1 ([], [])).1.isEmpty = true
        · rw [if_pos h1]
          exact pass2_inv _ _ _ (pass1_inv _ _ _
            ⟨fun j hj => absurd hj (List.not_mem_nil j), List.nodup_nil⟩)
        · rw [if_neg h1]
          exact pass1_inv _ _ _
            ⟨fun j hj => absurd hj (List.not_mem_nil j), List.nodup_nil⟩
      have hev : ∃ evs, (extract_presiding_judges doc).2 = dedupEvAux [] evs := by
        unfold extract_presiding_judges
        rw [if_neg hemp]
        exact ⟨_, rfl⟩
      have hchar : (extract_presiding_judges doc).1
          = firstOccurStr (rawJudgeVals doc) := by
        unfold extract_presiding_judges rawJudgeVals
        rw [if_neg hemp, if_neg hemp]
        dsimp only
        have hp1 : (pass1 (windowBase (doc.lines.take 600)).2
            (windowBase (doc.lines.take 600)).1 ([], [])).1 =
            firstOccurStr
              ((windowBase (doc.lines.take 600)).1.filterMap lineVal) := by
          rw [pass1_judges _ _ ([], [])]
          exact judgesFold_nil_eq _
        by_cases hie : ((windowBase (doc.lines.take 600)).1.filterMap
            lineVal).isEmpty = true
        · have hnilv : (windowBase (doc.lines.take 600)).1.filterMap lineVal
              = [] := List.isEmpty_iff.mp hie
          have hp1nil : (pass1 (windowBase (doc.lines.take 600)).2
              (windowBase (doc.lines.take 600)).1 ([], [])).1 = [] := by
            rw [hp1, hnilv, firstOccurStr_nil]
          rw [if_pos (by rw [hp1nil]; rfl), if_pos hie, hnilv,
            List.nil_append, pass2_judges _ _ _, hp1nil]
          exact judgesFold_nil_eq _
        · have hne : (windowBase (doc.lines.take 600)).1.filterMap lineVal
              ≠ [] := by
            intro h0
            rw [h0] at hie
            exact hie rfl
          have hp1ne : (pass1 (windowBase (doc.lines.take 600)).2
              (windowBase (doc.lines.take 600)).1 ([], [])).1.isEmpty
              = false := by
            rw [hp1]
            cases hv : (windowBase (doc.lines.take 600)).1.filterMap lineVal with
            | nil => exact absurd hv hne
            | cons a l =>
              rw [firstOccurStr_cons]
              rfl
          rw [if_neg (by rw [hp1ne]; exact (by decide)), if_neg hie,
            List.append_nil]
          exact hp1
      obtain ⟨evs, hev2⟩ := hev
      refine ⟨hchar, hok.1, hok.2, ?_⟩
      rw [hev2]
      exact (dedupEv_nodup_aux evs []).1
  · rfl

/-- Witness for C5: the judge extracted from the single line
`AR Tan Yu Qing` is the canonical normalization of a successful match. -/
theorem judges_normalized_and_deduped_witness :
    ∃ s nm t, tryMatchStr s = some (nm, t) ∧ "Tan Yu Qing AR" = mkJudgeVal nm t :=
  (judges_normalized_and_deduped.1 ⟨"", "", ["AR Tan Yu Qing"]⟩).2.1
    "Tan Yu Qing AR" (by decide)

theorem beq_false_of_neq {a b : String} (h : ¬ a = b) : (a == b) = false := by
  cases hab : a == b with
  | true => exact absurd (eq_of_beq hab) h
  | false => rfl

theorem find_replace (k : String) (v : FieldResult) :
    ∀ d : List (String × FieldResult),
      (d.map Prod.fst).contains k = true →
      List.find? (fun p => p.1 == k) (d.map fun p => if p.1 == k then (k, v) else p)
        = some (k, v) := by
  intro d
  induction d with
  | nil => intro h; cases h
  | cons p rest ih =>
    intro h
    rw [List.map_cons]
    by_cases hpk : (p.1 == k) = true
    · rw [if_pos hpk]
      exact List.find?_cons_of_pos _ (beq_self_eq_true k)
    · rw [if_neg hpk]
      rw [Bool.not_eq_true] at hpk
      rw [List.find?_cons_of_neg _ (by rw [hpk]; exact (by decide))]
      apply ih
      rw [List.map_cons, List.contains_cons] at h
      have hkp : (k == p.1) = false :=
        beq_false_of_neq fun he => by
          rw [he, beq_self_eq_true] at hpk
          cases hpk
      rw [hkp, Bool.false_or] at h
      exact h

theorem find_append_self (k : String) (v : FieldResult) :
    ∀ d : List (String × FieldResult),
      (d.map Prod.fst).contains k = false →
      List.find? (fun p => p.1 == k) (d ++ [(k, v)]) = some (k, v) := by
  intro d
  induction d with
  | nil =>
    intro _
    rw [List.nil_append]
    exact List.find?_cons_of_pos _ (beq_self_eq_true k)
  | cons p rest ih =>
    intro h
    rw [List.map_cons, List.contains_cons] at h
    obtain ⟨h1, h2⟩ := Bool.or_eq_false_iff.mp h
    rw [List.cons_append]
    have hpk : (p.1 == k) = false :=
      beq_false_of_neq fun he => by
        rw [he, beq_self_eq_true] at h1
        cases h1
    rw [List.find?_cons_of_neg _ (by rw [hpk]; exact (by decide))]
    exact ih h2

theorem dictGet_insert_self (d : List (String × FieldResult)) (k : String)
    (v : FieldResult) : dictGet (dictInsert d k v) k = some v := by
  unfold dictInsert dictGet
  by_cases hc : (d.map Prod.fst).contains k = true
  · rw [if_pos hc, find_replace k v d hc]
    rfl
  · rw [if_neg hc]
    rw [Bool.not_eq_true] at hc
    rw [find_append_self k v d hc]
    rfl

theorem find_replace_other (k q : String) (v : FieldResult) (hq : q ≠ k) :
    ∀ d : List (String × FieldResult),
      List.find? (fun p => p.1 == q) (d.map fun p => if p.1 == k then (k, v) else p)
        = List.find? (fun p => p.1 == q) d := by
  intro d
  induction d with
  | nil => rfl
  | cons p rest ih =>
    rw [List.map_cons]
    by_cases hpk : (p.1 == k) = true
    · rw [if_pos hpk]
      have hkq : (((k, v) : String × FieldResult).1 == q) = false :=
        beq_false_of_neq fun he => hq he.symm
      have hpq : (p.1 == q) = false :=
        beq_false_of_neq fun he => hq (he ▸ (eq_of_beq hpk) ▸ rfl : q = k)
      rw [List.find?_cons_of_neg _ (by rw [hkq]; exact (by decide)),
        List.find?_cons_of_neg _ (by rw [hpq]; exact (by decide))]
      exact ih
    · rw [if_neg hpk]
      by_cases hpq : (p.1 == q) = true
      · simp only [List.find?_cons, hpq]
      · have hpq2 : (p.1 == q) = false := by rwa [Bool.not_eq_true] at hpq
        simp only [List.find?_cons, hpq2]
        exact ih

theorem find_append_other (k q : String) (v : FieldResult) (hq : q ≠ k) :
    ∀ d : List (String × FieldResult),
      List.find? (fun p => p.1 == q) (d ++ [(k, v)])
        = List.find? (fun p => p.1 == q) d := by
  intro d
  induction d with
  | nil =>
    rw [List.nil_append]
    have hkq : (((k, v) : String × FieldResult).1 == q) = false :=
      beq_false_of_neq fun he => hq he.symm
    rw [List.find?_cons_of_neg _ (by rw [hkq]; exact (by decide))]
  | cons p rest ih =>
    rw [List.cons_append]
    by_cases hpq : (p.1 == q) = true
    · simp only [List.find?_cons, hpq]
    · have hpq2 : (p.1 == q) = false := by rwa [Bool.not_eq_true] at hpq
      simp only [List.find?_cons, hpq2]
      exact ih

theorem dictGet_insert_other (d : List (String × FieldResult)) (k q : String)
    (v : FieldResult) (hq : q ≠ k) :
    dictGet (dictInsert d k v) q = dictGet d q := by
  unfold dictInsert dictGet
  by_cases hc : (d.map Prod.fst).contains k = true
  · rw [if_pos hc, find_replace_other k q v hq d]
  · rw [if_neg hc, find_append_other k q v hq d]

theorem pyDictComp_lookup (allVars : List (String × FieldResult)) :
    ∀ (names : List String) (d : List (String × FieldResult)),
      (∀ n ∈ names, (dictGet allVars n).isSome = true) →
      ∀ q, dictGet (names.foldl
          (fun d n =>
            dictInsert d n ((dictGet allVars n).getD (FieldResult.citationV none []))) d) q
        = if q ∈ names then dictGet allVars q else dictGet d q := by
  intro names
  induction names with
  | nil =>
    intro d _ q
    rw [List.foldl_nil, if_neg (List.not_mem_nil q)]
  | cons m rest ih =>
    intro d hsome q
    rw [List.foldl_cons,
      ih _ (fun n hn => hsome n (List.mem_cons_of_mem m hn)) q]
    by_cases hqr : q ∈ rest
    · rw [if_pos hqr, if_pos (List.mem_cons_of_mem m hqr)]
    · rw [if_neg hqr]
      by_cases hqm : q = m
      · subst hqm
        rw [if_pos (List.mem_cons_self q rest), dictGet_insert_self]
        obtain ⟨a, ha⟩ := Option.isSome_iff_exists.mp
          (hsome q (List.mem_cons_self q rest))
        rw [ha]
        rfl
      · rw [dictGet_insert_other d m q _ hqm,
          if_neg (fun hmem => by
            rcases List.mem_cons.mp hmem with h1 | h1
            · exact hqm h1
            · exact hqr h1)]

theorem dictGet_extract_all_isSome (doc : ParsedDocument) :
    ∀ n ∈ supported_variables, (dictGet (extract_all doc) n).isSome = true := by
  intro n hn
  fin_cases hn <;> rfl

/-- C4: a request containing any unsupported field name fails with an
error enumerating all unknown names together plus the supported set and
produces no partial result; a request of only supported names returns
exactly the corresponding subset of the extract-all result, read as a
mapping. -/
theorem extract_by_names_validates (doc : ParsedDocument) (names : List String) :
    ((∃ n ∈ names, n ∉ supported_variables) →
      extract_by_names doc names =
        Except.error ("Unknown variable(s): " ++
          pyListRepr (names.filter fun n => !(supported_variables.contains n)) ++
          ". Supported: " ++ pyListRepr supported_variables)) ∧
    ((∀ n ∈ names, n ∈ supported_variables) →
      ∃ d, extract_by_names doc names = Except.ok d ∧
        ∀ q, dictGet d q =
          if q ∈ names then dictGet (extract_all doc) q else none) := by
  have hkeys : (extract_all doc).map Prod.fst = supported_variables := rfl
  constructor
  · rintro ⟨n, hn, hns⟩
    simp only [extract_by_names]
    rw [hkeys]
    have hcontf : supported_variables.contains n = false := by
      cases hcc : supported_variables.contains n with
      | true => exact absurd (List.elem_iff.mp hcc) hns
      | false => rfl
    have hmem : n ∈ names.filter fun n => !(supported_variables.contains n) :=
      List.mem_filter.mpr ⟨hn, by rw [hcontf]; rfl⟩
    have hne : (names.filter fun n => !(supported_variables.contains n)).isEmpty
        = false := by
      cases hie : (names.filter fun n => !(supported_variables.contains n)).isEmpty with
      | true =>
        rw [List.isEmpty_iff.mp hie] at hmem
        exact absurd hmem (List.not_mem_nil n)
      | false => rfl
    rw [if_neg (by rw [hne]; exact (by decide))]
  · intro hall
    simp only [extract_by_names]
    rw [hkeys]
    have hnil : (names.filter fun n => !(supported_variables.contains n)) = [] := by
      rw [List.filter_eq_nil_iff]
      intro a ha
      have hc : supported_variables.contains a = true :=
        List.elem_eq_true_of_mem (hall a ha)
      rw [hc]
      decide
    rw [hnil]
    refine ⟨pyDictComp names (extract_all doc), rfl, ?_⟩
    intro q
    exact pyDictComp_lookup (extract_all doc) names []
      (fun n hn => dictGet_extract_all_isSome doc n (hall n hn)) q

/-- Witness for C4: requesting `["case_citation", "bogus"]` fails with the
error enumerating the unknown names and the supported set. -/
theorem extract_by_names_validates_witness :
    extract_by_names ⟨"", "", []⟩ ["case_citation", "bogus"] =
      Except.error ("Unknown variable(s): " ++
        pyListRepr ((["case_citation", "bogus"] : List String).filter
          fun n => !(supported_variables.contains n)) ++
        ". Supported: " ++ pyListRepr supported_variables) :=
  (extract_by_names_validates ⟨"", "", []⟩ ["case_citation", "bogus"]).1
    ⟨"bogus", by decide, by decide⟩
